import Mathlib

/-!
Verification of the markdown code-block extractor `extract-code.py`.

The development shallowly embeds the program's functions over `List Char`
and `String`:

* `extract_code_blocks`, the fenced-block extractor (regex
  `` ```(\w+)?\n(.*?)``` `` with `re.DOTALL`, leftmost non-overlapping
  matches as produced by `re.findall`);
* `ensure_shebang`, the shebang-prepending helper;
* `strip_comments`, the language-aware comment stripper, including the
  Python per-line quote-toggle scanner, the docstring substitutions
  (`^\s*""".*?"""\s*$` and the `'''` variant, `re.MULTILINE | re.DOTALL`),
  the bash and javascript comment removals, and the final blank-line
  collapse (`\n\s*\n\s*\n+` → `\n\n`);
* `mainAllCode` / `mainCode`, the program's `main` pipeline for the
  `--all` and single-block paths.

Regex operations are embedded as explicit character scans implementing the
leftmost, greedy/lazy backtracking semantics of Python's `re` module.
-/

namespace Pop

/-- Python's whitespace class `\s` restricted to ASCII (the character set
relevant to `str.strip`, `str.rstrip` and the `\s` regex class). -/
def isSpaceP (c : Char) : Bool :=
  c = ' ' || c = '\t' || c = '\n' || c = '\r' || c = '\x0b' || c = '\x0c'

/-- Python's word class `\w` (ASCII): letters, digits, underscore. -/
def isWordP (c : Char) : Bool := c.isAlpha || c.isDigit || c = '_'

/-- `prefOf p l` : `p` is a prefix of `l` (Python `str.startswith`). -/
def prefOf : List Char → List Char → Bool
  | [], _ => true
  | _ :: _, [] => false
  | a :: as, b :: bs => a = b && prefOf as bs

/-- `hasSubL p l` : `p` occurs as a contiguous substring of `l`
(Python `p in l`). -/
def hasSubL (p : List Char) : List Char → Bool
  | [] => prefOf p []
  | c :: t => prefOf p (c :: t) || hasSubL p t

/-- Substring test on strings. -/
def hasSubS (p s : String) : Bool := hasSubL p.data s.data

/-- Python `str.lstrip()`. -/
def lstripL (l : List Char) : List Char := l.dropWhile isSpaceP

/-- Python `str.rstrip()`. -/
def rstripL (l : List Char) : List Char := (l.reverse.dropWhile isSpaceP).reverse

/-- Python `str.strip()`. -/
def pstripL (l : List Char) : List Char := rstripL (lstripL l)

/-- Python `str.strip()` on strings. -/
def pstripS (s : String) : String := ⟨pstripL s.data⟩

/-- Python `str.lower()` (ASCII). -/
def lowerS (s : String) : String := ⟨s.data.map Char.toLower⟩

/-- Python `code.split('\n')`; always returns a nonempty list. -/
def splitNl : List Char → List (List Char)
  | [] => [[]]
  | c :: t =>
    match splitNl t with
    | [] => [[c]]
    | h :: hs => if c = '\n' then [] :: h :: hs else (c :: h) :: hs

/-- Python `'\n'.join(lines)`. -/
def joinNl : List (List Char) → List Char
  | [] => []
  | [l] => l
  | l :: ls => l ++ '\n' :: joinNl ls

/-- The first line of a string (`code.split('\n')[0]`). -/
def firstLineL (l : List Char) : List Char := l.takeWhile (fun c => c ≠ '\n')

/-- A Python-falsy optional language (`None` or `""`) is normalised to
`none`; `if not language:` in the source tests exactly this. -/
def truthyLang : Option String → Option String
  | none => none
  | some s => if s = "" then none else some s

/-! ## The fenced-block extractor

`re.findall(r'```(\w+)?\n(.*?)```', text, re.DOTALL)`.
A match at a position requires the literal triple backtick, then the
maximal `\w+` run immediately followed by `'\n'` (or, with the optional
group skipped, an immediate `'\n'`), then the lazy `.*?` taking the
shortest content closed by the next triple backtick. -/

/-- Lazy body scan: split off everything before the first closing
triple-backtick fence, together with the remainder after it. -/
def closeFence : List Char → Option (List Char × List Char)
  | '`' :: '`' :: '`' :: r => some ([], r)
  | [] => none
  | c :: t =>
    match closeFence t with
    | some (cs, r) => some (c :: cs, r)
    | none => none

/-- Try to match the fenced-block pattern at the head of `l`; on success
return the language tag (`""` when the optional group is unmatched, as in
`re.findall`), the block content, and the remainder after the match. -/
def fenceAt (l : List Char) : Option (String × String × List Char) :=
  match l with
  | '`' :: '`' :: '`' :: r =>
    let w := r.takeWhile isWordP
    if w.isEmpty then
      match r with
      | '\n' :: body =>
        match closeFence body with
        | some (cs, rest) => some ("", ⟨cs⟩, rest)
        | none => none
      | _ => none
    else
      match r.drop w.length with
      | '\n' :: body =>
        match closeFence body with
        | some (cs, rest) => some (⟨w⟩, ⟨cs⟩, rest)
        | none => none
      | _ => none
  | _ => none

/-- Leftmost non-overlapping scan for all fenced blocks (`re.findall`). -/
def findAllGo : Nat → List Char → List (String × String)
  | 0, _ => []
  | _ + 1, [] => []
  | fuel + 1, c :: t =>
    match fenceAt (c :: t) with
    | some (tag, content, rest) => (tag, content) :: findAllGo fuel rest
    | none => findAllGo fuel t

/-- All fenced blocks of a text, in order, as `(tag, content)` pairs. -/
def findAllFences (s : String) : List (String × String) :=
  findAllGo (s.data.length + 1) s.data

/-- Result of `extract_code_blocks`: the code, the detected language, and
the messages written to `sys.stderr`. -/
structure ExtractOut where
  code : String
  lang : Option String
  err : List String
deriving DecidableEq, Repr

/-- `extract_code_blocks(text, language)` from the source: pass the text
through when no block matches at all; otherwise filter by the language tag
case-insensitively, emit a diagnostic and return empty content when the
filter removes everything, and otherwise return the first block trimmed,
with its tag (falling back to the filter when the tag is empty). -/
def extract_code_blocks (text : String) (language : Option String) : ExtractOut :=
  let ms := findAllFences text
  if ms = [] then ⟨text, language, []⟩
  else
    let ms2 :=
      match truthyLang language with
      | some f => ms.filter (fun p => lowerS p.1 == lowerS f)
      | none => ms
    match ms2 with
    | [] =>
      ⟨"", language,
        ["No code blocks found for language: " ++
          (match language with | some s => s | none => "None") ++ "\n"]⟩
    | (dl, c) :: _ => ⟨pstripS c, if dl = "" then language else some dl, []⟩

/-! ## `ensure_shebang` -/

/-- The source's first-line test `lines[0].strip().startswith('#!')`. -/
def firstLineShebang (code : String) : Bool :=
  match splitNl code.data with
  | [] => false
  | l0 :: _ => prefOf "#!".data (pstripL l0)

/-- Keyword-based language detection used by `ensure_shebang`. -/
def detectLangES (code : String) : Option String :=
  if hasSubS "import " code || hasSubS "def " code || hasSubS "class " code then
    some "python"
  else if hasSubS "function " code || hasSubS "const " code || hasSubS "let " code then
    some "javascript"
  else if hasSubS "echo " code || hasSubS "[[" code || hasSubS "if [" code then
    some "bash"
  else none

/-- The canonical shebang for a detected language, when known. -/
def shebangFor : Option String → Option String
  | some l =>
    if l = "python" || l = "py" then some "#!/usr/bin/env python3"
    else if l = "bash" || l = "sh" || l = "shell" then some "#!/bin/bash"
    else if l = "javascript" || l = "js" || l = "node" then some "#!/usr/bin/env node"
    else if l = "ruby" || l = "rb" then some "#!/usr/bin/env ruby"
    else if l = "perl" || l = "pl" then some "#!/usr/bin/env perl"
    else if l = "php" then some "#!/usr/bin/env php"
    else none
  | none => none

/-- The language `ensure_shebang` works with: the argument when truthy,
otherwise the keyword-detected one. -/
def esLang (code : String) (language : Option String) : Option String :=
  match truthyLang language with
  | none => detectLangES code
  | some l => some l

/-- `ensure_shebang(code, language)` from the source. -/
def ensure_shebang (code : String) (language : Option String) : String :=
  if firstLineShebang code then code
  else
    match shebangFor (esLang code language) with
    | some sb => sb ++ "\n" ++ code
    | none => code

/-! ## `strip_comments`: the Python branch's per-line scanner

The source iterates over a line's characters tracking a naive quote state:
a quote character not immediately preceded by a backslash toggles the
state, and an unquoted `#` stops the line. -/

/-- Quote-scanner state: inside a string?, and the opening quote char
(meaningful only while inside). -/
structure QState where
  inStr : Bool
  qc : Char
deriving DecidableEq, Repr

/-- One step of the quote toggle for character `c` with previous
character `prev` (`none` at the start of the line). -/
def qstep (st : QState) (prev : Option Char) (c : Char) : QState :=
  if (c = '"' || c = '\'') && (match prev with | none => true | some p => p ≠ '\\') then
    if !st.inStr then ⟨true, c⟩
    else if c = st.qc then ⟨false, st.qc⟩
    else st
  else st

/-- The scanner loop: keep characters until an unquoted `#` is hit
(the `break` in the source). -/
def pyScanGo : List Char → Option Char → QState → List Char
  | [], _, _ => []
  | c :: t, prev, st =>
    let st' := qstep st prev c
    if c = '#' && !st'.inStr then []
    else c :: pyScanGo t (some c) st'

/-- Scan a whole line from the initial state. -/
def pyScan (l : List Char) : List Char := pyScanGo l none ⟨false, ' '⟩

/-- Per-line Python processing for a non-first line (and for a first line
that is not a shebang): lines containing `#` are scanned and
right-stripped, others are kept verbatim. -/
def pyProcessLine (l : List Char) : List Char :=
  if l.contains '#' then rstripL (pyScan l) else l

/-- The shared line pass of the python and bash branches: the first line
is kept verbatim when it is a shebang, every other line is processed. -/
def linesMap (f : List Char → List Char) (code : List Char) : List Char :=
  match splitNl code with
  | [] => []
  | l0 :: ls =>
    joinNl ((if prefOf "#!".data (pstripL l0) then l0 else f l0) :: ls.map f)

/-- The Python branch's line pass: the first line is kept when it is a
shebang, every other line goes through `pyProcessLine`. -/
def pyLines (code : List Char) : List Char := linesMap pyProcessLine code

/-! ## Docstring removal

`re.sub(r'^\s*""".*?"""\s*$', '', code, flags=re.MULTILINE | re.DOTALL)`
and the `'''` variant.  A match starts at a line start, takes the maximal
whitespace run followed by the opening triple quote, then the lazy body up
to the first closing triple quote after which `\s*$` succeeds; `\s*$`
greedily consumes whitespace up to the end of the string, or up to the
last newline of the whitespace run following the closing quotes. -/

/-- The triple-quote token for quote character `q`. -/
def tripleQ (q : Char) : List Char := [q, q, q]

/-- Index of the last `'\n'` in a list, if any. -/
def lastNlIdx : List Char → Option Nat
  | [] => none
  | c :: t =>
    match lastNlIdx t with
    | some j => some (j + 1)
    | none => if c = '\n' then some 0 else none

/-- `\s*$` after the closing quotes: the number of characters consumed,
or `none` when the tail cannot reach an end-of-line. -/
def dsEnd (l : List Char) : Option Nat :=
  let run := l.takeWhile isSpaceP
  if run.length = l.length then some l.length
  else lastNlIdx run

/-- Lazy search for the closing triple quote with a valid `\s*$` tail;
returns the characters consumed from the body onwards and the remainder. -/
def closeDS (q : Char) : List Char → Option (List Char × List Char)
  | [] => none
  | c :: t =>
    if prefOf (tripleQ q) (c :: t) then
      match dsEnd ((c :: t).drop 3) with
      | some k => some ((c :: t).take (3 + k), (c :: t).drop (3 + k))
      | none =>
        match closeDS q t with
        | some (cs, r) => some (c :: cs, r)
        | none => none
    else
      match closeDS q t with
      | some (cs, r) => some (c :: cs, r)
      | none => none

/-- Try a docstring match at a line-start position: the consumed
characters and the remainder. -/
def matchDocAt (q : Char) (l : List Char) : Option (List Char × List Char) :=
  let sps := l.takeWhile isSpaceP
  let r := l.drop sps.length
  if prefOf (tripleQ q) r then
    match closeDS q (r.drop 3) with
    | some (cs, rest) => some (sps ++ tripleQ q ++ cs, rest)
    | none => none
  else none

/-- The substitution scan: at line starts try a docstring match and drop
it, otherwise copy a character; `atLS` records whether the current
position follows a newline (or is the start of the string). -/
def dsSubGo (q : Char) : Nat → Bool → List Char → List Char
  | 0, _, l => l
  | _ + 1, _, [] => []
  | fuel + 1, atLS, c :: t =>
    if atLS then
      match matchDocAt q (c :: t) with
      | some (cons, rest) => dsSubGo q fuel (cons.getLast? == some '\n') rest
      | none => c :: dsSubGo q fuel (c == '\n') t
    else c :: dsSubGo q fuel (c == '\n') t

/-- Whole-string docstring substitution for quote character `q`. -/
def dsSub (q : Char) (l : List Char) : List Char :=
  dsSubGo q (l.length + 1) true l

/-! ## Bash and javascript comment removal -/

/-- Bash per-line processing for a non-shebang line: truncate at the
first `#` and right-strip. -/
def bashProcessLine (l : List Char) : List Char :=
  if l.contains '#' then
    rstripL (l.takeWhile (fun c => c ≠ '#'))
  else l

/-- The bash branch: first-line shebang kept, all other lines truncated
at `#`. -/
def bashLines (code : List Char) : List Char := linesMap bashProcessLine code

/-- `re.sub(r'//.*$', '', code, flags=re.MULTILINE)` on one line:
truncate at the first `//`. -/
def jsCutLine : List Char → List Char
  | [] => []
  | c :: t => if prefOf "//".data (c :: t) then [] else c :: jsCutLine t

/-- The `//`-comment removal over all lines. -/
def jsLineSub (code : List Char) : List Char :=
  joinNl ((splitNl code).map jsCutLine)

/-- Find the first `*/` and return the remainder after it
(the lazy `.*?` of `/\*.*?\*/`). -/
def findClose : List Char → Option (List Char)
  | [] => none
  | c :: t => if prefOf "*/".data (c :: t) then some ((c :: t).drop 2) else findClose t

/-- `re.sub(r'/\*.*?\*/', '', code, flags=re.DOTALL)`: leftmost scan
removing each closed block comment. -/
def blockSubGo : Nat → List Char → List Char
  | 0, l => l
  | _ + 1, [] => []
  | fuel + 1, c :: t =>
    if prefOf "/*".data (c :: t) then
      match findClose ((c :: t).drop 2) with
      | some rest => blockSubGo fuel rest
      | none => c :: blockSubGo fuel t
    else c :: blockSubGo fuel t

/-- Whole-string block-comment removal. -/
def blockSub (l : List Char) : List Char := blockSubGo (l.length + 1) l

/-! ## The final blank-line collapse

`re.sub(r'\n\s*\n\s*\n+', '\n\n', code)`: each maximal whitespace run
containing at least three newlines is matched from its first to its last
newline and replaced by two newlines. -/

/-- Number of newlines in a list. -/
def countNl (l : List Char) : Nat := l.countP (fun c => c = '\n')

/-- The collapse scan. -/
def collapseGo : Nat → List Char → List Char
  | 0, l => l
  | _ + 1, [] => []
  | fuel + 1, c :: t =>
    if c = '\n' then
      let run := c :: t.takeWhile isSpaceP
      if 3 ≤ countNl run then
        match lastNlIdx run with
        | some j => '\n' :: '\n' :: collapseGo fuel ((c :: t).drop (j + 1))
        | none => c :: collapseGo fuel t
      else c :: collapseGo fuel t
    else c :: collapseGo fuel t

/-- Whole-string blank-line collapse. -/
def collapseL (l : List Char) : List Char := collapseGo (l.length + 1) l

/-! ## `strip_comments` -/

/-- Language inference in `strip_comments` when none is supplied. -/
def detectLangSC (code : String) (language : Option String) : Option String :=
  match truthyLang language with
  | some l => some l
  | none =>
    if prefOf "#!/usr/bin/env python".data (pstripL code.data)
        || hasSubS "import " code || hasSubS "def " code then
      some "python"
    else if prefOf "#!/bin/bash".data (pstripL code.data)
        || prefOf "#!/bin/sh".data (pstripL code.data) then
      some "bash"
    else none

/-- Membership of an optional language in a list of names (Python's
`language in [...]`, where `None` is in no list). -/
def memOpt (o : Option String) (xs : List String) : Bool :=
  match o with
  | some l => xs.contains l
  | none => false

/-- `strip_comments(code, language)` from the source. -/
def strip_comments (code : String) (language : Option String) : String :=
  let lang := detectLangSC code language
  let body :=
    if memOpt lang ["python", "py"] then
      dsSub '\'' (dsSub '"' (pyLines code.data))
    else if memOpt lang ["bash", "sh", "shell"] then
      bashLines code.data
    else if memOpt lang ["javascript", "js", "typescript", "ts"] then
      blockSub (jsLineSub code.data)
    else code.data
  ⟨collapseL body⟩

/-! ## The `main` pipeline -/

/-- `'\n\n'.join(strs)`. -/
def joinBlank : List String → String
  | [] => ""
  | [s] => s
  | s :: ss => s ++ "\n\n" ++ joinBlank ss

/-- The `--all` path of `main`: all (optionally filtered) blocks, each
trimmed, joined by a blank line. -/
def mainAllCode (text : String) (argLang : Option String) : String :=
  let ms := findAllFences text
  let ms2 :=
    match truthyLang argLang with
    | some f => ms.filter (fun p : String × String => lowerS p.1 == lowerS f)
    | none => ms
  joinBlank (ms2.map (fun p : String × String => pstripS p.2))

/-- The `main` pipeline: extraction (single or `--all`), `ensure_shebang`,
optional `strip_comments`.  Returns the string passed to `print` together
with the diagnostics written to stderr. -/
def mainCode (text : String) (argLang : Option String)
    (allFlag stripFlag : Bool) : String × List String :=
  let step :=
    if allFlag then (mainAllCode text argLang, argLang, ([] : List String))
    else
      let r := extract_code_blocks text argLang
      (r.code, r.lang, r.err)
  let code1 := ensure_shebang step.1 step.2.1
  let code2 := if stripFlag then strip_comments code1 step.2.1 else code1
  (code2, step.2.2)

/-! ## Basic lemmas about `splitNl` -/

theorem splitNl_ne_nil (l : List Char) : splitNl l ≠ [] := by
  cases l with
  | nil => simp [splitNl]
  | cons c t =>
    simp only [splitNl]
    split
    · simp
    · split <;> simp

theorem splitNl_append_nl (a b : List Char) (h : '\n' ∉ a) :
    splitNl (a ++ '\n' :: b) = a :: splitNl b := by
  induction a with
  | nil =>
    simp only [List.nil_append, splitNl]
    rcases h2 : splitNl b with _ | ⟨h0, hs⟩
    · exact absurd h2 (splitNl_ne_nil b)
    · simp
  | cons c t ih =>
    have hc : c ≠ '\n' := by
      intro e
      exact h (by simp [e])
    have ht : '\n' ∉ t := fun m => h (List.mem_cons_of_mem _ m)
    simp only [List.cons_append, splitNl, List.append_eq]
    rw [ih ht]
    simp [hc]

/-- Every shebang produced by `shebangFor` is a single line whose
stripped form starts with `#!`. -/
theorem shebangFor_shebang (o : Option String) (sb : String)
    (h : shebangFor o = some sb) :
    '\n' ∉ sb.data ∧ prefOf "#!".data (pstripL sb.data) = true := by
  cases o with
  | none => simp [shebangFor] at h
  | some l =>
    simp only [shebangFor] at h
    split_ifs at h <;> simp only [Option.some.injEq] at h <;> subst h <;>
      exact ⟨by decide, by decide⟩

/-- Claim C10: `ensure_shebang` is idempotent: its output either equals
the input or begins with a prepended shebang line, and any input whose
first line is a shebang is returned unchanged. -/
theorem ensure_shebang_idem (code : String) (language : Option String) :
    ensure_shebang (ensure_shebang code language) language
      = ensure_shebang code language := by
  by_cases h1 : firstLineShebang code
  · simp [ensure_shebang, h1]
  · rcases hsf : shebangFor (esLang code language) with _ | sb
    · simp [ensure_shebang, h1, hsf]
    · have hsb := shebangFor_shebang _ _ hsf
      have hdata : (sb ++ "\n" ++ code).data = sb.data ++ '\n' :: code.data := by
        simp [String.data_append]
      have hfl : firstLineShebang (sb ++ "\n" ++ code) = true := by
        unfold firstLineShebang
        rw [hdata, splitNl_append_nl _ _ hsb.1]
        exact hsb.2
      simp [ensure_shebang, h1, hsf, hfl]

/-- Claim C9: keyword-based language inference checks the python keywords
first, then the javascript ones, then the bash ones, so on a text with
keyword matches for several languages the earliest-checked language wins. -/
theorem detectLangES_precedence (code : String) :
    ((hasSubS "import " code || hasSubS "def " code || hasSubS "class " code) = true →
      detectLangES code = some "python") ∧
    ((hasSubS "import " code || hasSubS "def " code || hasSubS "class " code) = false →
      (hasSubS "function " code || hasSubS "const " code || hasSubS "let " code) = true →
      detectLangES code = some "javascript") ∧
    ((hasSubS "import " code || hasSubS "def " code || hasSubS "class " code) = false →
      (hasSubS "function " code || hasSubS "const " code || hasSubS "let " code) = false →
      (hasSubS "echo " code || hasSubS "[[" code || hasSubS "if [" code) = true →
      detectLangES code = some "bash") := by
  refine ⟨fun h => ?_, fun h1 h2 => ?_, fun h1 h2 h3 => ?_⟩ <;>
    simp [detectLangES, *]

/-- Witness for C9: a text containing both python and bash keywords is
detected as python, and one with javascript and bash keywords (but no
python ones) as javascript. -/
theorem detectLangES_precedence_witness :
    detectLangES "import x\necho y" = some "python" ∧
    detectLangES "const x; echo y" = some "javascript" :=
  ⟨(detectLangES_precedence "import x\necho y").1 (by decide),
   (detectLangES_precedence "const x; echo y").2.1 (by decide) (by decide)⟩

/-- Claim C1, amended: with no fenced block and no filter, extraction
passes the text through unchanged, and the whole tool (without
`--strip-comments`) prints `ensure_shebang text none` — the input itself
except that a shebang line may be prepended by the shebang step. -/
theorem extract_passthrough (text : String) (h : findAllFences text = []) :
    extract_code_blocks text none = ⟨text, none, []⟩ ∧
    mainCode text none false false = (ensure_shebang text none, []) := by
  constructor
  · simp [extract_code_blocks, h]
  · simp [mainCode, extract_code_blocks, h]

/-- Witness for the amended C1 at a genuinely inert plain text. -/
theorem extract_passthrough_witness :
    findAllFences "hello world" = [] ∧
    extract_code_blocks "hello world" none = ⟨"hello world", none, []⟩ ∧
    mainCode "hello world" none false false = ("hello world", []) := by
  have h : findAllFences "hello world" = [] := by decide
  have h2 := extract_passthrough "hello world" h
  have h3 : ensure_shebang "hello world" none = "hello world" := by decide
  exact ⟨h, h2.1, by rw [h2.2, h3]⟩

/-- Counterexample to C1 as stated: `"import os"` contains no fenced
block, yet the tool does not print it unchanged — the shebang step
prepends an interpreter line. -/
theorem extract_passthrough_counterexample :
    findAllFences "import os" = [] ∧
    (mainCode "import os" none false false).1 ≠ "import os" ∧
    (mainCode "import os" none false false).1
      = "#!/usr/bin/env python3\nimport os" := by
  decide

/-- Claim C2, amended: on the single-block path, when at least one fenced
block exists but none survives the (truthy) language filter, a diagnostic
is emitted on stderr and empty content is returned; the filtered `--all`
path also produces empty content, but the `--all` path never writes a
diagnostic to stderr. -/
theorem filter_no_match (text f : String) (hf : f ≠ "")
    (h1 : findAllFences text ≠ [])
    (h2 : (findAllFences text).filter
      (fun p : String × String => lowerS p.1 == lowerS f) = []) :
    extract_code_blocks text (some f) =
      ⟨"", some f, ["No code blocks found for language: " ++ f ++ "\n"]⟩ ∧
    mainAllCode text (some f) = "" ∧
    (∀ (t2 : String) (l2 : Option String) (s2 : Bool),
      (mainCode t2 l2 true s2).2 = []) := by
  refine ⟨?_, ?_, fun t2 l2 s2 => ?_⟩
  · simp [extract_code_blocks, truthyLang, hf, h1, h2]
  · simp [mainAllCode, truthyLang, hf, h2, joinBlank]
  · simp [mainCode]

/-- Witness for the amended C2: a python-tagged block filtered by `bash`. -/
theorem filter_no_match_witness :
    findAllFences "```python\nx\n```\n" ≠ [] ∧
    extract_code_blocks "```python\nx\n```\n" (some "bash") =
      ⟨"", some "bash", ["No code blocks found for language: bash\n"]⟩ ∧
    mainAllCode "```python\nx\n```\n" (some "bash") = "" := by
  have h := filter_no_match "```python\nx\n```\n" "bash" (by decide)
    (by decide) (by decide)
  exact ⟨by decide, h.1, h.2.1⟩

/-- Counterexample to C2 as stated: with a python-only text and filter
`bash`, the `--all` path returns empty content but emits no diagnostic on
stderr; moreover with no fenced block at all the single-block path
returns the text, not empty content, and stays silent. -/
theorem filter_no_match_counterexample :
    (mainCode "```python\nx\n```\n" (some "bash") true false).2 = [] ∧
    mainAllCode "```python\nx\n```\n" (some "bash") = "" ∧
    extract_code_blocks "hello" (some "bash") = ⟨"hello", some "bash", []⟩ := by
  decide

/-- Claim C3: with no filter, extraction returns the first block's
content trimmed, with the block's tag as detected language; an absent
(empty) tag falls back to the filter argument. -/
theorem extract_first_block :
    (∀ text C, findAllFences text = [("python", C)] →
      extract_code_blocks text none = ⟨pstripS C, some "python", []⟩) ∧
    (∀ text tag C rest, findAllFences text = (tag, C) :: rest →
      extract_code_blocks text none =
        ⟨pstripS C, if tag = "" then none else some tag, []⟩) := by
  constructor
  · intro text C h
    simp [extract_code_blocks, h, truthyLang]
  · intro text tag C rest h
    by_cases htag : tag = "" <;> simp [extract_code_blocks, h, truthyLang, htag]

/-- Witness for C3 at a one-block text with tag `python`. -/
theorem extract_first_block_witness :
    findAllFences "x\n```python\nprint(1)\n```\ny" = [("python", "print(1)\n")] ∧
    extract_code_blocks "x\n```python\nprint(1)\n```\ny" none =
      ⟨"print(1)", some "python", []⟩ := by
  have h : findAllFences "x\n```python\nprint(1)\n```\ny"
      = [("python", "print(1)\n")] := by decide
  have h2 := extract_first_block.1 _ _ h
  have h3 : pstripS "print(1)\n" = "print(1)" := by decide
  exact ⟨h, by rw [h2, h3]⟩

/-- Claim C5: the `--all` output is the qualifying blocks — all blocks
when no filter is given, and exactly the blocks whose tag matches a given
filter case-insensitively — each trimmed, joined by exactly one blank
line; in particular two unfiltered blocks give
`trim c1 ++ "\n\n" ++ trim c2`, and under a filter with two survivors the
output is the two survivors trimmed and joined. -/
theorem main_all_join :
    (∀ text, mainAllCode text none =
      joinBlank ((findAllFences text).map (fun p : String × String => pstripS p.2))) ∧
    (∀ text l1 c1 l2 c2, findAllFences text = [(l1, c1), (l2, c2)] →
      mainAllCode text none = pstripS c1 ++ "\n\n" ++ pstripS c2) ∧
    (∀ text f, f ≠ "" →
      mainAllCode text (some f) =
        joinBlank (((findAllFences text).filter
          (fun p : String × String => lowerS p.1 == lowerS f)).map
          (fun p : String × String => pstripS p.2))) ∧
    (∀ text f l1 c1 l2 c2 l3 c3, f ≠ "" →
      findAllFences text = [(l1, c1), (l2, c2), (l3, c3)] →
      (lowerS l1 == lowerS f) = true →
      (lowerS l2 == lowerS f) = false →
      (lowerS l3 == lowerS f) = true →
      mainAllCode text (some f) = pstripS c1 ++ "\n\n" ++ pstripS c3) := by
  refine ⟨fun text => rfl, ?_, ?_, ?_⟩
  · intro text l1 c1 l2 c2 h
    simp [mainAllCode, truthyLang, h, joinBlank]
  · intro text f hf
    simp [mainAllCode, truthyLang, hf]
  · intro text f l1 c1 l2 c2 l3 c3 hf hfind h1 h2 h3
    simp [mainAllCode, truthyLang, hf, hfind, List.filter_cons, h1, h2, h3,
      joinBlank]

/-- Witness for C5: two untagged blocks with contents `a` and `b` give
output `"a\n\nb"` without a filter; with filter `PYTHON`, of three blocks
tagged `python`, `bash`, `Python` only the first and third survive and
the output is `"a\n\nc"`. -/
theorem main_all_join_witness :
    (findAllFences "```\na\n```\n```\nb\n```\n" = [("", "a\n"), ("", "b\n")] ∧
      mainAllCode "```\na\n```\n```\nb\n```\n" none = "a\n\nb") ∧
    (findAllFences "```python\na\n```\n```bash\nb\n```\n```Python\nc\n```\n"
        = [("python", "a\n"), ("bash", "b\n"), ("Python", "c\n")] ∧
      mainAllCode "```python\na\n```\n```bash\nb\n```\n```Python\nc\n```\n"
        (some "PYTHON") = "a\n\nc") := by
  have h : findAllFences "```\na\n```\n```\nb\n```\n"
      = [("", "a\n"), ("", "b\n")] := by decide
  have h2 := main_all_join.2.1 _ _ _ _ _ h
  have h3 : pstripS "a\n" ++ "\n\n" ++ pstripS "b\n" = "a\n\nb" := by decide
  have hg : findAllFences "```python\na\n```\n```bash\nb\n```\n```Python\nc\n```\n"
      = [("python", "a\n"), ("bash", "b\n"), ("Python", "c\n")] := by decide
  have hg2 := main_all_join.2.2.2 _ "PYTHON" _ _ _ _ _ _ (by decide) hg
    (by decide) (by decide) (by decide)
  have hg3 : pstripS "a\n" ++ "\n\n" ++ pstripS "c\n" = "a\n\nc" := by decide
  exact ⟨⟨h, by rw [h2, h3]⟩, ⟨hg, by rw [hg2, hg3]⟩⟩

/-! ## C6: the per-line quote toggle never truncates at a quoted `#` -/

/-- `noBreak l prev st` holds when the scanner starting in state `st`
(with previous character `prev`) never meets an unquoted `#` in `l`,
i.e. every `#` of the line lies inside a single- or double-quoted string
according to the per-line quote toggle. -/
def noBreak : List Char → Option Char → QState → Bool
  | [], _, _ => true
  | c :: t, prev, st =>
    let st' := qstep st prev c
    (!(c = '#' && !st'.inStr)) && noBreak t (some c) st'

theorem pyScanGo_of_noBreak (l : List Char) :
    ∀ (prev : Option Char) (st : QState), noBreak l prev st = true →
      pyScanGo l prev st = l := by
  induction l with
  | nil => intro prev st _; rfl
  | cons c t ih =>
    intro prev st h
    simp only [noBreak, Bool.and_eq_true, Bool.not_eq_eq_eq_not, Bool.not_true] at h
    simp only [pyScanGo]
    rw [if_neg (by simp [h.1]), ih (some c) _ h.2]

/-- Claim C6: Python comment stripping never truncates at a `#` that the
per-line quote toggle places inside a string: when every `#` of a line is
in-string (`noBreak`), the scanner keeps the whole line, so the line is
only right-stripped, never cut; in particular `strip` on the line
`x = "a#b"` with language python returns it unchanged. -/
theorem py_string_hash_preserved :
    (∀ l : List Char, noBreak l none ⟨false, ' '⟩ = true →
      pyScan l = l ∧
      pyProcessLine l = if l.contains '#' then rstripL l else l) ∧
    strip_comments "x = \"a#b\"" (some "python") = "x = \"a#b\"" := by
  constructor
  · intro l h
    have hs : pyScan l = l := pyScanGo_of_noBreak l none ⟨false, ' '⟩ h
    exact ⟨hs, by unfold pyProcessLine; rw [hs]⟩
  · decide

/-- Witness for C6: the line `x = "a#b"` has its `#` inside a string per
the toggle, and the scanner keeps it whole. -/
theorem py_string_hash_preserved_witness :
    noBreak "x = \"a#b\"".data none ⟨false, ' '⟩ = true ∧
    pyScan "x = \"a#b\"".data = "x = \"a#b\"".data :=
  ⟨by decide, (py_string_hash_preserved.1 "x = \"a#b\"".data (by decide)).1⟩

/-! ## C8: the blank-line collapse -/

theorem collapseGo_no_nl (fuel : Nat) (l : List Char) (h : '\n' ∉ l) :
    collapseGo fuel l = l := by
  induction fuel generalizing l with
  | zero => rfl
  | succ g ih =>
    cases l with
    | nil => rfl
    | cons c t =>
      have hc : ¬(c = '\n') := fun e => h (by simp [e])
      simp only [collapseGo]
      rw [if_neg hc, ih t (fun m => h (List.mem_cons_of_mem _ m))]

theorem takeWhile_nospace (b : List Char) (hb : ∀ c ∈ b, isSpaceP c = false) :
    b.takeWhile isSpaceP = [] := by
  cases b with
  | nil => rfl
  | cons c t => simp [List.takeWhile_cons, hb c (by simp)]

theorem takeWhile_repl (k : Nat) (b : List Char)
    (hb : ∀ c ∈ b, isSpaceP c = false) :
    (List.replicate k '\n' ++ b).takeWhile isSpaceP = List.replicate k '\n' := by
  induction k with
  | zero => simpa using takeWhile_nospace b hb
  | succ k' ih =>
    simp only [List.replicate_succ, List.cons_append, List.takeWhile_cons]
    rw [if_pos (by decide), ih]

theorem countNl_repl (m : Nat) : countNl (List.replicate m '\n') = m := by
  induction m with
  | zero => rfl
  | succ m' ih =>
    simp only [countNl, List.replicate_succ, List.countP_cons] at *
    simp [ih]

theorem no_nl_of_nospace (b : List Char) (hb : ∀ c ∈ b, isSpaceP c = false) :
    '\n' ∉ b := by
  intro m
  have := hb _ m
  simp [isSpaceP] at this

theorem lastNlIdx_repl (m : Nat) (hm : 1 ≤ m) :
    lastNlIdx (List.replicate m '\n') = some (m - 1) := by
  induction m with
  | zero => omega
  | succ m' ih =>
    rw [List.replicate_succ]
    cases m' with
    | zero => rfl
    | succ m'' =>
      have h1 := ih (by omega)
      show (match lastNlIdx (List.replicate (m'' + 1) '\n') with
        | some j => some (j + 1)
        | none => if '\n' = '\n' then some 0 else none) = some (m'' + 1 + 1 - 1)
      rw [h1]
      simp


theorem collapseGo_small (fuel : Nat) :
    ∀ (m : Nat) (b : List Char), m ≤ 2 → (∀ c ∈ b, isSpaceP c = false) →
      collapseGo fuel (List.replicate m '\n' ++ b) = List.replicate m '\n' ++ b := by
  induction fuel with
  | zero => intro m b _ _; rfl
  | succ g ih =>
    intro m b hm hb
    cases m with
    | zero => simpa using collapseGo_no_nl (g + 1) b (no_nl_of_nospace b hb)
    | succ m' =>
      have hrun := takeWhile_repl m' b hb
      have hcount : countNl ('\n' :: List.replicate m' '\n') = m' + 1 := by
        have := countNl_repl (m' + 1)
        rwa [List.replicate_succ] at this
      simp only [List.replicate_succ, List.cons_append, collapseGo,
        List.append_eq, if_true, hrun, hcount]
      rw [if_neg (by omega), ih m' b (by omega) hb]

theorem collapseGo_big (fuel m : Nat) (b : List Char) (hm : 3 ≤ m)
    (hb : ∀ c ∈ b, isSpaceP c = false)
    (hfuel : (List.replicate m '\n' ++ b).length ≤ fuel) :
    collapseGo fuel (List.replicate m '\n' ++ b) = '\n' :: '\n' :: b := by
  cases fuel with
  | zero =>
    exfalso
    simp [List.length_append, List.length_replicate] at hfuel
    omega
  | succ g =>
    cases m with
    | zero => omega
    | succ m' =>
      have hrun := takeWhile_repl m' b hb
      have hrepl : ('\n' :: List.replicate m' '\n') = List.replicate (m' + 1) '\n' := by
        rw [List.replicate_succ]
      have hcount : countNl ('\n' :: List.replicate m' '\n') = m' + 1 := by
        rw [hrepl]; exact countNl_repl (m' + 1)
      simp only [List.replicate_succ, List.cons_append, collapseGo,
        List.append_eq, if_true, hrun, hcount]
      rw [if_pos (by omega), hrepl, lastNlIdx_repl (m' + 1) (by omega)]
      have hdrop : ('\n' :: (List.replicate m' '\n' ++ b)).drop (m' + 1 - 1 + 1) = b := by
        have heq : ('\n' :: (List.replicate m' '\n' ++ b))
            = List.replicate (m' + 1) '\n' ++ b := by
          rw [List.replicate_succ]; rfl
        rw [heq]
        have hlen : m' + 1 - 1 + 1 = (List.replicate (m' + 1) '\n').length := by
          simp
        rw [hlen, List.drop_left]
      dsimp only
      rw [hdrop, collapseGo_no_nl g b (no_nl_of_nospace b hb)]

theorem collapseGo_runs (fuel : Nat) (a : List Char) :
    ∀ (m : Nat) (b : List Char), (∀ c ∈ a, isSpaceP c = false) →
      (∀ c ∈ b, isSpaceP c = false) →
      (a ++ (List.replicate m '\n' ++ b)).length ≤ fuel →
      (3 ≤ m → collapseGo fuel (a ++ (List.replicate m '\n' ++ b))
          = a ++ ('\n' :: '\n' :: b)) ∧
      (m ≤ 2 → collapseGo fuel (a ++ (List.replicate m '\n' ++ b))
          = a ++ (List.replicate m '\n' ++ b)) := by
  induction a generalizing fuel with
  | nil =>
    intro m b _ hb hfuel
    constructor
    · intro hm
      simpa using collapseGo_big fuel m b hm hb (by simpa using hfuel)
    · intro hm
      simpa using collapseGo_small fuel m b hm hb
  | cons c a' ih =>
    intro m b ha hb hfuel
    have hc : ¬(c = '\n') := by
      intro e
      have := ha c (by simp)
      rw [e] at this
      simp [isSpaceP] at this
    cases fuel with
    | zero => simp at hfuel
    | succ g =>
      have ha' : ∀ x ∈ a', isSpaceP x = false := fun x m2 => ha x (by simp [m2])
      have hfg : (a' ++ (List.replicate m '\n' ++ b)).length ≤ g := by
        simp only [List.cons_append, List.length_cons] at hfuel
        omega
      have h2 := ih g m b ha' hb hfg
      constructor
      · intro hm
        simp only [List.cons_append, collapseGo, List.append_eq]
        rw [if_neg hc, (h2.1 hm)]
      · intro hm
        simp only [List.cons_append, collapseGo, List.append_eq]
        rw [if_neg hc, (h2.2 hm)]

/-- Claim C8, amended: the final cleanup (applied whatever the language)
collapses every run of two or more consecutive blank lines — i.e. three
or more consecutive newlines — into exactly one blank line, and leaves
runs of at most one blank line unchanged; in particular four consecutive
blank lines yield exactly one.  (The original claim's "runs of at most
two blank lines are left as they are" fails: two blank lines are already
collapsed.) -/
theorem strip_collapse_blank_lines (a b : List Char) (m : Nat)
    (ha : ∀ c ∈ a, isSpaceP c = false) (hb : ∀ c ∈ b, isSpaceP c = false) :
    (3 ≤ m → collapseL (a ++ List.replicate m '\n' ++ b) = a ++ '\n' :: '\n' :: b) ∧
    (m ≤ 2 → collapseL (a ++ List.replicate m '\n' ++ b)
        = a ++ List.replicate m '\n' ++ b) ∧
    (∀ (code : String) (lang : Option String), ∃ mid : List Char,
      strip_comments code lang = ⟨collapseL mid⟩) := by
  have h := collapseGo_runs ((a ++ List.replicate m '\n' ++ b).length + 1) a m b
    ha hb (by simp [List.append_assoc])
  refine ⟨?_, ?_, fun code lang => ⟨_, rfl⟩⟩
  · intro hm
    have h1 := h.1 hm
    unfold collapseL
    simpa [List.append_assoc] using h1
  · intro hm
    have h1 := h.2 hm
    unfold collapseL
    simpa [List.append_assoc] using h1

/-- Witness for the amended C8: four consecutive blank lines (five
newlines) collapse to exactly one blank line, both at the collapse level
and through `strip_comments`. -/
theorem strip_collapse_blank_lines_witness :
    collapseL ("a".data ++ List.replicate 5 '\n' ++ "b".data)
      = "a".data ++ '\n' :: '\n' :: "b".data ∧
    strip_comments "a\n\n\n\n\nb" none = "a\n\nb" :=
  ⟨(strip_collapse_blank_lines "a".data "b".data 5 (by decide) (by decide)).1
      (by omega),
   by decide⟩

/-- Counterexample to C8 as stated: `"a\n\n\nb"` holds a run of exactly
two consecutive blank lines, which the claim says is left as it is, yet
stripping collapses it to one blank line. -/
theorem strip_collapse_blank_lines_counterexample :
    splitNl "a\n\n\nb".data = ["a".data, [], [], "b".data] ∧
    strip_comments "a\n\n\nb" none = "a\n\nb" ∧
    ("a\n\n\nb" : String) ≠ "a\n\nb" := by
  decide

/-! ## C7: shebang first lines survive python and bash stripping -/

theorem firstLineL_append_nl (l0 t : List Char) (h : '\n' ∉ l0) :
    firstLineL (l0 ++ '\n' :: t) = l0 := by
  induction l0 with
  | nil => simp [firstLineL]
  | cons c l0' ih =>
    have hc : c ≠ '\n' := fun e => h (by simp [e])
    have h' : '\n' ∉ l0' := fun m => h (List.mem_cons_of_mem _ m)
    simp only [List.cons_append, firstLineL, List.takeWhile_cons] at ih ⊢
    rw [if_pos (by simp [hc]), ih h']

theorem firstLineL_no_nl (l : List Char) (h : '\n' ∉ l) : firstLineL l = l := by
  induction l with
  | nil => rfl
  | cons c t ih =>
    have hc : c ≠ '\n' := fun e => h (by simp [e])
    simp only [firstLineL, List.takeWhile_cons] at ih ⊢
    rw [if_pos (by simp [hc]), ih (fun m => h (List.mem_cons_of_mem _ m))]

theorem no_nl_firstLine (l : List Char) : '\n' ∉ firstLineL l := by
  intro m
  have := List.mem_takeWhile_imp m
  simp at this

theorem splitNl_single (l : List Char) (h : '\n' ∉ l) : splitNl l = [l] := by
  induction l with
  | nil => rfl
  | cons c t ih =>
    have hc : c ≠ '\n' := fun e => h (by simp [e])
    simp only [splitNl, ih (fun m => h (List.mem_cons_of_mem _ m))]
    rw [if_neg hc]

theorem firstLine_decomp (l : List Char) (h : '\n' ∈ l) :
    ∃ T, l = firstLineL l ++ '\n' :: T := by
  induction l with
  | nil => simp at h
  | cons c t ih =>
    by_cases hc : c = '\n'
    · subst hc
      exact ⟨t, by simp [firstLineL]⟩
    · have ht : '\n' ∈ t := by
        rcases List.mem_cons.mp h with e | m
        · exact absurd e.symm hc
        · exact m
      obtain ⟨T, hT⟩ := ih ht
      refine ⟨T, ?_⟩
      simp only [firstLineL, List.takeWhile_cons]
      rw [if_pos (by simp [hc])]
      conv_lhs => rw [hT]
      rfl

theorem prefOf_iff (p : List Char) : ∀ l, prefOf p l = true ↔ ∃ r, l = p ++ r := by
  induction p with
  | nil => intro l; simp [prefOf]
  | cons a as ih =>
    intro l
    cases l with
    | nil => simp [prefOf]
    | cons b bs =>
      simp only [prefOf, Bool.and_eq_true, decide_eq_true_eq, ih, List.cons_append,
        List.cons.injEq]
      constructor
      · rintro ⟨h1, r, h2⟩
        exact ⟨r, h1.symm, h2⟩
      · rintro ⟨r, h1, h2⟩
        exact ⟨h1.symm, r, h2⟩

theorem rstripL_decomp (l : List Char) :
    l = rstripL l ++ (l.reverse.takeWhile isSpaceP).reverse := by
  conv_lhs => rw [← List.reverse_reverse l,
    ← List.takeWhile_append_dropWhile isSpaceP l.reverse]
  rw [List.reverse_append]
  rfl

/-- A line whose stripped form starts with `#!` has `#` as its first
non-whitespace character. -/
theorem hashLead (l : List Char) (h : prefOf "#!".data (pstripL l) = true) :
    (l.dropWhile isSpaceP).head? = some '#' := by
  obtain ⟨r, hr⟩ := (prefOf_iff _ _).mp h
  have hdec := rstripL_decomp (l.dropWhile isSpaceP)
  have hps : pstripL l = rstripL (l.dropWhile isSpaceP) := rfl
  rw [hps] at hr
  rw [hr] at hdec
  rw [hdec]
  rfl

theorem drop_len_takeWhile (p : Char → Bool) (l : List Char) :
    l.drop (l.takeWhile p).length = l.dropWhile p := by
  induction l with
  | nil => rfl
  | cons c t ih =>
    by_cases hc : p c = true
    · simp [List.takeWhile_cons, List.dropWhile_cons, hc, ih]
    · simp [List.takeWhile_cons, List.dropWhile_cons, hc]

/-- No docstring match can start at a position whose first non-space
character is `#` (in particular at the start of a shebang line). -/
theorem matchDocAt_none_hash (q : Char) (hq : q ≠ '#') (l : List Char)
    (h : (l.dropWhile isSpaceP).head? = some '#') :
    matchDocAt q l = none := by
  obtain ⟨rest, hrest⟩ : ∃ rest, l.dropWhile isSpaceP = '#' :: rest := by
    cases hD : l.dropWhile isSpaceP with
    | nil => rw [hD] at h; simp at h
    | cons a r =>
      rw [hD] at h
      simp only [List.head?_cons, Option.some.injEq] at h
      exact ⟨r, by rw [h]⟩
  simp only [matchDocAt]
  rw [drop_len_takeWhile, hrest]
  rw [if_neg (by simp [tripleQ, prefOf, hq])]

theorem dsSubGo_false_noNl (q : Char) (fuel : Nat) :
    ∀ l, '\n' ∉ l → dsSubGo q fuel false l = l := by
  induction fuel with
  | zero => intro l _; rfl
  | succ g ih =>
    intro l h
    cases l with
    | nil => rfl
    | cons c t =>
      have hc : (c == '\n') = false := by
        simp only [beq_eq_false_iff_ne, ne_eq]
        exact fun e => h (by simp [e])
      simp only [dsSubGo, Bool.false_eq_true, if_false, hc]
      rw [ih t (fun m => h (List.mem_cons_of_mem _ m))]

theorem dsSubGo_false_line (q : Char) (l0 : List Char) (h : '\n' ∉ l0) :
    ∀ (fuel : Nat) (t : List Char),
      ∃ t', dsSubGo q fuel false (l0 ++ '\n' :: t) = l0 ++ '\n' :: t' := by
  induction l0 with
  | nil =>
    intro fuel t
    cases fuel with
    | zero => exact ⟨t, rfl⟩
    | succ g =>
      exact ⟨dsSubGo q g true t, by simp [dsSubGo]⟩
  | cons c l0' ih =>
    intro fuel t
    cases fuel with
    | zero => exact ⟨t, rfl⟩
    | succ g =>
      have hc : (c == '\n') = false := by
        simp only [beq_eq_false_iff_ne, ne_eq]
        exact fun e => h (by simp [e])
      obtain ⟨t', ht'⟩ := ih (fun m => h (List.mem_cons_of_mem _ m)) g t
      refine ⟨t', ?_⟩
      simp only [List.cons_append, dsSubGo, Bool.false_eq_true, if_false, hc,
        List.append_eq]
      rw [ht']

theorem dsSubGo_true_hash (q : Char) (hq : q ≠ '#') (l0 : List Char)
    (h0 : '\n' ∉ l0) (hh : (l0.dropWhile isSpaceP).head? = some '#') :
    ∀ (fuel : Nat) (t : List Char),
      ∃ t', dsSubGo q fuel true (l0 ++ '\n' :: t) = l0 ++ '\n' :: t' := by
  intro fuel t
  cases fuel with
  | zero => exact ⟨t, rfl⟩
  | succ g =>
    have hl0 : l0 ≠ [] := by
      intro e
      rw [e] at hh
      simp at hh
    obtain ⟨c, l0', rfl⟩ := List.exists_cons_of_ne_nil hl0
    have hmd : matchDocAt q ((c :: l0') ++ '\n' :: t) = none := by
      apply matchDocAt_none_hash q hq
      rw [List.dropWhile_append]
      have hne : (List.dropWhile isSpaceP (c :: l0')).isEmpty = false := by
        cases hD : List.dropWhile isSpaceP (c :: l0') with
        | nil => rw [hD] at hh; simp at hh
        | cons a r => simp
      rw [if_neg (by simp [hne])]
      cases hD : List.dropWhile isSpaceP (c :: l0') with
      | nil => rw [hD] at hh; simp at hh
      | cons a r =>
        rw [hD] at hh
        simpa using hh
    have hc : (c == '\n') = false := by
      simp only [beq_eq_false_iff_ne, ne_eq]
      exact fun e => h0 (by simp [e])
    obtain ⟨t', ht'⟩ :=
      dsSubGo_false_line q l0' (fun m => h0 (List.mem_cons_of_mem _ m)) g t
    refine ⟨t', ?_⟩
    rw [List.cons_append] at hmd
    have hun : dsSubGo q (g + 1) true ((c :: l0') ++ '\n' :: t)
        = c :: dsSubGo q g false (l0' ++ '\n' :: t) := by
      simp [dsSubGo, hmd, hc]
    rw [hun, ht']
    rfl

theorem dsSubGo_true_hash_single (q : Char) (hq : q ≠ '#') (l0 : List Char)
    (h0 : '\n' ∉ l0) (hh : (l0.dropWhile isSpaceP).head? = some '#') :
    ∀ (fuel : Nat), dsSubGo q fuel true l0 = l0 := by
  intro fuel
  cases fuel with
  | zero => rfl
  | succ g =>
    cases l0 with
    | nil => rfl
    | cons c l0' =>
      have hmd : matchDocAt q (c :: l0') = none := matchDocAt_none_hash q hq _ hh
      have hc : (c == '\n') = false := by
        simp only [beq_eq_false_iff_ne, ne_eq]
        exact fun e => h0 (by simp [e])
      have hun : dsSubGo q (g + 1) true (c :: l0')
          = c :: dsSubGo q g false l0' := by
        simp [dsSubGo, hmd, hc]
      rw [hun, dsSubGo_false_noNl q g l0' (fun m => h0 (List.mem_cons_of_mem _ m))]

theorem collapseGo_line (l0 : List Char) (h0 : '\n' ∉ l0) :
    ∀ (fuel : Nat) (t : List Char),
      ∃ t', collapseGo fuel (l0 ++ '\n' :: t) = l0 ++ '\n' :: t' := by
  induction l0 with
  | nil =>
    intro fuel t
    cases fuel with
    | zero => exact ⟨t, rfl⟩
    | succ g =>
      simp only [List.nil_append, collapseGo, if_true]
      by_cases h3 : 3 ≤ countNl ('\n' :: t.takeWhile isSpaceP)
      · rw [if_pos h3]
        cases hL : lastNlIdx ('\n' :: t.takeWhile isSpaceP) with
        | none => exact ⟨collapseGo g t, rfl⟩
        | some j => exact ⟨'\n' :: collapseGo g (('\n' :: t).drop (j + 1)), rfl⟩
      · rw [if_neg h3]
        exact ⟨collapseGo g t, rfl⟩
  | cons c l0' ih =>
    intro fuel t
    cases fuel with
    | zero => exact ⟨t, rfl⟩
    | succ g =>
      have hc : ¬(c = '\n') := fun e => h0 (by simp [e])
      obtain ⟨t', ht'⟩ := ih (fun m => h0 (List.mem_cons_of_mem _ m)) g t
      refine ⟨t', ?_⟩
      simp only [List.cons_append, collapseGo, List.append_eq]
      rw [if_neg hc, ht']

/-- Structure of `linesMap` when the first line is a shebang: the first
line is kept verbatim. -/
theorem linesMap_shebang_line (f : List Char → List Char) (code : List Char)
    (hs : prefOf "#!".data (pstripL (firstLineL code)) = true) :
    (∃ R, linesMap f code = firstLineL code ++ '\n' :: R) ∨
      (linesMap f code = code ∧ '\n' ∉ code) := by
  by_cases hn : '\n' ∈ code
  · obtain ⟨T, hT⟩ := firstLine_decomp code hn
    left
    have h0 : '\n' ∉ firstLineL code := no_nl_firstLine code
    have hsplit : splitNl code = firstLineL code :: splitNl T := by
      conv_lhs => rw [hT]
      exact splitNl_append_nl _ _ h0
    unfold linesMap
    rcases hT2 : splitNl T with _ | ⟨m0, ms⟩
    · exact absurd hT2 (splitNl_ne_nil T)
    · rw [hsplit, hT2]
      dsimp only
      rw [if_pos hs]
      exact ⟨joinNl (f m0 :: ms.map f), rfl⟩
  · right
    refine ⟨?_, hn⟩
    unfold linesMap
    rw [splitNl_single code hn]
    have hfl : firstLineL code = code := firstLineL_no_nl code hn
    rw [hfl] at hs
    dsimp only
    rw [if_pos hs]
    rfl

/-- First-line preservation through the whole python branch. -/
theorem py_branch_firstLine (code : List Char)
    (hs : prefOf "#!".data (pstripL (firstLineL code)) = true) :
    firstLineL (collapseL (dsSub '\'' (dsSub '"' (pyLines code))))
      = firstLineL code := by
  rcases linesMap_shebang_line pyProcessLine code hs with ⟨R, hR⟩ | ⟨hEq, hn⟩
  · have h0 : '\n' ∉ firstLineL code := no_nl_firstLine code
    have hh : ((firstLineL code).dropWhile isSpaceP).head? = some '#' :=
      hashLead _ hs
    unfold pyLines
    rw [hR]
    obtain ⟨R2, h2⟩ := dsSubGo_true_hash '"' (by decide) _ h0 hh
      ((firstLineL code ++ '\n' :: R).length + 1) R
    unfold dsSub
    rw [h2]
    obtain ⟨R3, h3⟩ := dsSubGo_true_hash '\'' (by decide) _ h0 hh
      ((firstLineL code ++ '\n' :: R2).length + 1) R2
    rw [h3]
    obtain ⟨R4, h4⟩ := collapseGo_line _ h0
      ((firstLineL code ++ '\n' :: R3).length + 1) R3
    unfold collapseL
    rw [h4]
    exact firstLineL_append_nl _ _ h0
  · unfold pyLines
    rw [hEq]
    have hfl : firstLineL code = code := firstLineL_no_nl code hn
    have hh : (code.dropWhile isSpaceP).head? = some '#' := by
      rw [hfl] at hs
      exact hashLead _ hs
    unfold dsSub
    rw [dsSubGo_true_hash_single '"' (by decide) code hn hh _]
    rw [dsSubGo_true_hash_single '\'' (by decide) code hn hh _]
    unfold collapseL
    rw [collapseGo_no_nl _ code hn]

/-- First-line preservation through the whole bash branch. -/
theorem bash_branch_firstLine (code : List Char)
    (hs : prefOf "#!".data (pstripL (firstLineL code)) = true) :
    firstLineL (collapseL (bashLines code)) = firstLineL code := by
  rcases linesMap_shebang_line bashProcessLine code hs with ⟨R, hR⟩ | ⟨hEq, hn⟩
  · have h0 : '\n' ∉ firstLineL code := no_nl_firstLine code
    unfold bashLines
    rw [hR]
    obtain ⟨R4, h4⟩ := collapseGo_line _ h0
      ((firstLineL code ++ '\n' :: R).length + 1) R
    unfold collapseL
    rw [h4]
    exact firstLineL_append_nl _ _ h0
  · unfold bashLines
    rw [hEq]
    unfold collapseL
    rw [collapseGo_no_nl _ code hn]

/-- Claim C7: for the python and bash language families, a script whose
first line is a shebang keeps that exact first line verbatim after
comment stripping. -/
theorem strip_preserves_shebang (code : String) (lang : String)
    (hl : lang = "python" ∨ lang = "py" ∨ lang = "bash" ∨ lang = "sh" ∨
      lang = "shell")
    (hs : prefOf "#!".data (pstripL (firstLineL code.data)) = true) :
    firstLineL (strip_comments code (some lang)).data
      = firstLineL code.data := by
  have hpy := py_branch_firstLine code.data hs
  have hba := bash_branch_firstLine code.data hs
  rcases hl with rfl | rfl | rfl | rfl | rfl
  · simpa [strip_comments, detectLangSC, truthyLang, memOpt] using hpy
  · simpa [strip_comments, detectLangSC, truthyLang, memOpt] using hpy
  · simpa [strip_comments, detectLangSC, truthyLang, memOpt] using hba
  · simpa [strip_comments, detectLangSC, truthyLang, memOpt] using hba
  · simpa [strip_comments, detectLangSC, truthyLang, memOpt] using hba

/-- Witness for C7: a python script starting with
`#!/usr/bin/env python3` keeps that exact first line after stripping. -/
theorem strip_preserves_shebang_witness :
    prefOf "#!".data
      (pstripL (firstLineL "#!/usr/bin/env python3\nx = 1 # c\n".data)) = true ∧
    firstLineL
        (strip_comments "#!/usr/bin/env python3\nx = 1 # c\n" (some "python")).data
      = firstLineL "#!/usr/bin/env python3\nx = 1 # c\n".data :=
  ⟨by decide,
   strip_preserves_shebang "#!/usr/bin/env python3\nx = 1 # c\n" "python"
     (Or.inl rfl) (by decide)⟩

/-! ## C4 toolkit: splitting and joining lines, substring occurrences -/

theorem joinNl_cons_cons (x y : List Char) (ys : List (List Char)) :
    joinNl (x :: y :: ys) = x ++ '\n' :: joinNl (y :: ys) := rfl

theorem joinNl_splitNl (l : List Char) : joinNl (splitNl l) = l := by
  induction l with
  | nil => rfl
  | cons c t ih =>
    simp only [splitNl]
    rcases h : splitNl t with _ | ⟨h0, hs⟩
    · exact absurd h (splitNl_ne_nil t)
    · rw [h] at ih
      dsimp only
      by_cases hc : c = '\n'
      · subst hc
        rw [if_pos rfl, joinNl_cons_cons]
        simpa using ih
      · rw [if_neg hc]
        cases hs with
        | nil =>
          show c :: h0 = c :: t
          rw [show h0 = t from ih]
        | cons z zs =>
          rw [joinNl_cons_cons]
          show c :: (h0 ++ '\n' :: joinNl (z :: zs)) = c :: t
          rw [← joinNl_cons_cons, ih]

theorem splitNl_joinNl (ls : List (List Char)) (h : ∀ x ∈ ls, '\n' ∉ x)
    (hne : ls ≠ []) : splitNl (joinNl ls) = ls := by
  induction ls with
  | nil => exact absurd rfl hne
  | cons x ys ih =>
    cases ys with
    | nil => exact splitNl_single x (h x (by simp))
    | cons z zs =>
      rw [joinNl_cons_cons]
      rw [splitNl_append_nl x (joinNl (z :: zs)) (h x (by simp))]
      rw [ih (fun y hy => h y (by simp [hy])) (by simp)]

theorem splitNl_head_pfx :
    ∀ (t h0 : List Char) (hs : List (List Char)), splitNl t = h0 :: hs → h0 <+: t := by
  intro t
  induction t with
  | nil =>
    intro h0 hs h
    simp only [splitNl, List.cons.injEq] at h
    rw [← h.1]
  | cons c t ih =>
    intro h0 hs h
    simp only [splitNl] at h
    rcases h2 : splitNl t with _ | ⟨g0, gs⟩
    · exact absurd h2 (splitNl_ne_nil t)
    · rw [h2] at h
      dsimp only at h
      by_cases hc : c = '\n'
      · rw [if_pos hc] at h
        rw [← (List.cons.injEq _ _ _ _ ▸ h : [] = h0 ∧ _).1]
        exact List.nil_prefix
      · rw [if_neg hc] at h
        have h3 := (List.cons.injEq _ _ _ _ ▸ h : c :: g0 = h0 ∧ _).1
        rw [← h3]
        obtain ⟨w, hw⟩ := ih g0 gs h2
        exact ⟨w, by rw [← hw]; rfl⟩

theorem mem_splitNl_no_nl (l : List Char) :
    ∀ x ∈ splitNl l, '\n' ∉ x := by
  induction l with
  | nil =>
    intro x hx
    simp only [splitNl, List.mem_singleton] at hx
    simp [hx]
  | cons c t ih =>
    intro x hx
    simp only [splitNl] at hx
    rcases h2 : splitNl t with _ | ⟨g0, gs⟩
    · exact absurd h2 (splitNl_ne_nil t)
    · rw [h2] at hx
      dsimp only at hx
      by_cases hc : c = '\n'
      · rw [if_pos hc] at hx
        rcases List.mem_cons.mp hx with rfl | hx2
        · simp
        · exact ih x (h2 ▸ hx2)
      · rw [if_neg hc] at hx
        rcases List.mem_cons.mp hx with rfl | hx2
        · intro hm
          rcases List.mem_cons.mp hm with e | hm2
          · exact hc e.symm
          · exact ih g0 (h2 ▸ List.mem_cons_self g0 gs) hm2
        · exact ih x (h2 ▸ List.mem_cons_of_mem g0 hx2)

theorem mem_splitNl_within (l : List Char) :
    ∀ x ∈ splitNl l, x <:+: l := by
  induction l with
  | nil =>
    intro x hx
    simp only [splitNl, List.mem_singleton] at hx
    simp [hx]
  | cons c t ih =>
    intro x hx
    simp only [splitNl] at hx
    rcases h2 : splitNl t with _ | ⟨g0, gs⟩
    · exact absurd h2 (splitNl_ne_nil t)
    · rw [h2] at hx
      dsimp only at hx
      by_cases hc : c = '\n'
      · rw [if_pos hc] at hx
        rcases List.mem_cons.mp hx with rfl | hx2
        · exact ⟨[], c :: t, by simp⟩
        · obtain ⟨s, w, hsw⟩ := ih x (h2 ▸ hx2)
          exact ⟨c :: s, w, by rw [List.cons_append, List.cons_append, hsw]⟩
      · rw [if_neg hc] at hx
        rcases List.mem_cons.mp hx with rfl | hx2
        · obtain ⟨w, hw⟩ := splitNl_head_pfx t g0 gs h2
          exact ⟨[], w, by simp [hw]⟩
        · obtain ⟨s, w, hsw⟩ := ih x (h2 ▸ List.mem_cons_of_mem g0 hx2)
          exact ⟨c :: s, w, by rw [List.cons_append, List.cons_append, hsw]⟩

theorem hasSub_iff (p : List Char) :
    ∀ l, hasSubL p l = true ↔ ∃ u v, l = u ++ p ++ v := by
  intro l
  induction l with
  | nil =>
    simp only [hasSubL, prefOf_iff]
    constructor
    · rintro ⟨r, hr⟩
      exact ⟨[], r, by simpa using hr⟩
    · rintro ⟨u, v, huv⟩
      rcases List.append_eq_nil.mp ((List.append_assoc u p v ▸ huv).symm) with ⟨hu, hpv⟩
      rcases List.append_eq_nil.mp hpv with ⟨hp, hv⟩
      exact ⟨[], by simp [hp]⟩
  | cons c t ih =>
    simp only [hasSubL, Bool.or_eq_true, prefOf_iff, ih]
    constructor
    · rintro (⟨r, hr⟩ | ⟨u, v, huv⟩)
      · exact ⟨[], r, by simpa using hr⟩
      · exact ⟨c :: u, v, by simp [huv]⟩
    · rintro ⟨u, v, huv⟩
      cases u with
      | nil => exact Or.inl ⟨v, by simpa using huv⟩
      | cons a u' =>
        right
        simp only [List.cons_append, List.cons.injEq] at huv
        exact ⟨u', v, huv.2⟩

theorem hasSub_of_within (p x l : List Char) (hx : x <:+: l)
    (h : hasSubL p x = true) : hasSubL p l = true := by
  obtain ⟨u, v, huv⟩ := (hasSub_iff p x).mp h
  obtain ⟨s, w, hsw⟩ := hx
  exact (hasSub_iff p l).mpr ⟨s ++ u, v ++ w, by rw [← hsw, huv]; simp⟩

theorem pfx_hasSub (p a : List Char) (h : p <+: a) : hasSubL p a = true := by
  obtain ⟨w, hw⟩ := h
  exact (hasSub_iff p a).mpr ⟨[], w, by simp [hw]⟩

/-- A newline-free prefix pattern of `a ++ '\n' :: b` is a prefix of `a`. -/
theorem pfx_nl (p : List Char) (hp : '\n' ∉ p) :
    ∀ (a b v : List Char), a ++ '\n' :: b = p ++ v → p <+: a := by
  induction p with
  | nil => intro a b v _; exact List.nil_prefix
  | cons d p' ih =>
    intro a b v h
    have hd : d ≠ '\n' := fun e => hp (by simp [e])
    cases a with
    | nil =>
      simp only [List.nil_append, List.cons_append, List.cons.injEq] at h
      exact absurd h.1.symm hd
    | cons e a' =>
      simp only [List.cons_append, List.cons.injEq] at h
      obtain ⟨w, hw⟩ := ih (fun m => hp (by simp [m])) a' b v h.2
      exact ⟨w, by rw [List.cons_append, hw, h.1]⟩

/-- A newline-free substring of `a ++ '\n' :: b` lies in `a` or in `b`. -/
theorem sub_split_nl (p : List Char) (hp : '\n' ∉ p) :
    ∀ (a b : List Char), hasSubL p (a ++ '\n' :: b) = true →
      hasSubL p a = true ∨ hasSubL p b = true := by
  intro a
  induction a with
  | nil =>
    intro b h
    obtain ⟨u, v, huv⟩ := (hasSub_iff p _).mp h
    cases u with
    | nil =>
      cases p with
      | nil => exact Or.inl rfl
      | cons d p' =>
        simp only [List.nil_append, List.cons_append, List.cons.injEq] at huv
        exact absurd huv.1 (fun e => hp (List.mem_cons.mpr (Or.inl e)))
    | cons x u' =>
      simp only [List.nil_append, List.cons_append, List.cons.injEq] at huv
      exact Or.inr ((hasSub_iff p b).mpr ⟨u', v, huv.2⟩)
  | cons c a' ih =>
    intro b h
    obtain ⟨u, v, huv⟩ := (hasSub_iff p _).mp h
    cases u with
    | nil =>
      simp only [List.nil_append] at huv
      exact Or.inl (pfx_hasSub p (c :: a')
        (pfx_nl p hp (c :: a') b v (by simpa using huv)))
    | cons x u' =>
      simp only [List.cons_append, List.cons.injEq] at huv
      rcases ih b ((hasSub_iff p _).mpr ⟨u', v, huv.2⟩) with h1 | h1
      · exact Or.inl (by simp [hasSubL, h1])
      · exact Or.inr h1

/-- A newline-free, nonempty pattern occurring in a joined line list
occurs in one of the lines. -/
theorem sub_joinNl (p : List Char) (hp : '\n' ∉ p) (hp2 : p ≠ []) :
    ∀ (ls : List (List Char)), hasSubL p (joinNl ls) = true →
      ∃ L ∈ ls, hasSubL p L = true := by
  intro ls
  induction ls with
  | nil =>
    intro h
    obtain ⟨u, v, huv⟩ := (hasSub_iff p _).mp h
    rcases List.append_eq_nil.mp ((List.append_assoc u p v ▸ huv).symm) with ⟨_, hpv⟩
    exact absurd (List.append_eq_nil.mp hpv).1 hp2
  | cons x ys ih =>
    intro h
    cases ys with
    | nil => exact ⟨x, by simp, h⟩
    | cons z zs =>
      rw [joinNl_cons_cons] at h
      rcases sub_split_nl p hp x (joinNl (z :: zs)) h with h1 | h1
      · exact ⟨x, by simp, h1⟩
      · obtain ⟨L, hL, hL2⟩ := ih h1
        exact ⟨L, by simp [hL], hL2⟩

theorem joinNl_append (A X : List (List Char)) (hA : A ≠ []) (hX : X ≠ []) :
    joinNl (A ++ X) = joinNl A ++ '\n' :: joinNl X := by
  induction A with
  | nil => exact absurd rfl hA
  | cons a A' ih =>
    cases A' with
    | nil =>
      obtain ⟨x, xs, rfl⟩ := List.exists_cons_of_ne_nil hX
      rfl
    | cons b A'' =>
      rw [show (a :: b :: A'') ++ X = a :: b :: (A'' ++ X) from rfl]
      rw [joinNl_cons_cons]
      rw [show (b :: (A'' ++ X) : List (List Char)) = (b :: A'') ++ X from rfl]
      rw [ih (by simp), joinNl_cons_cons]
      simp

theorem mem_joinNl_infix (ls : List (List Char)) :
    ∀ L ∈ ls, L <:+: joinNl ls := by
  induction ls with
  | nil => intro L hL; simp at hL
  | cons x ys ih =>
    intro L hL
    rcases List.mem_cons.mp hL with rfl | hL2
    · cases ys with
      | nil => exact List.infix_refl L
      | cons z zs =>
        rw [joinNl_cons_cons]
        exact ⟨[], '\n' :: joinNl (z :: zs), by simp⟩
    · cases ys with
      | nil => simp at hL2
      | cons z zs =>
        rw [joinNl_cons_cons]
        obtain ⟨s, w, hsw⟩ := ih L hL2
        exact ⟨x ++ '\n' :: s, w, by rw [← hsw]; simp⟩

theorem splitNl_concat (a : List Char) :
    ∀ (b : List Char) (A : List (List Char)) (h B : List Char)
      (t : List (List Char)),
      splitNl a = A ++ [h] → splitNl b = B :: t →
      splitNl (a ++ b) = A ++ (h ++ B) :: t := by
  induction a with
  | nil =>
    intro b A h B t ha hb
    rw [show splitNl ([] : List Char) = [[]] from rfl] at ha
    cases A with
    | cons A0 A' =>
      simp only [List.cons_append, List.cons.injEq] at ha
      exact absurd ha.2.symm (by simp)
    | nil =>
      simp only [List.nil_append, List.cons.injEq] at ha
      rw [List.nil_append, List.nil_append, ← ha.1, List.nil_append]
      exact hb
  | cons c a' ih =>
    intro b A h B t ha hb
    rcases h2 : splitNl a' with _ | ⟨g0, gs⟩
    · exact absurd h2 (splitNl_ne_nil a')
    simp only [splitNl, h2] at ha
    rw [show (c :: a') ++ b = c :: (a' ++ b) from rfl]
    simp only [splitNl]
    rcases h4 : splitNl (a' ++ b) with _ | ⟨k0, ks⟩
    · exact absurd h4 (splitNl_ne_nil _)
    dsimp only
    by_cases hc : c = '\n'
    · rw [if_pos hc] at ha ⊢
      cases A with
      | nil =>
        simp only [List.nil_append, List.cons.injEq] at ha
        exact absurd ha.2 (by simp)
      | cons A0 A' =>
        simp only [List.cons_append, List.cons.injEq] at ha
        obtain ⟨hA0, hrest⟩ := ha
        have ihres := ih b A' h B t (by rw [h2, hrest]) hb
        have hk := h4.symm.trans ihres
        rw [show (A0 :: A') ++ (h ++ B) :: t = A0 :: (A' ++ (h ++ B) :: t) from rfl]
        rw [← hA0, ← hk]
    · rw [if_neg hc] at ha ⊢
      cases A with
      | nil =>
        simp only [List.nil_append, List.cons.injEq] at ha
        obtain ⟨hh, hgs⟩ := ha
        have ihres := ih b [] g0 B t (by rw [h2, hgs]; rfl) hb
        have hk := h4.symm.trans ihres
        simp only [List.nil_append] at hk ⊢
        injection hk with hk0 hks
        rw [hk0, hks, ← hh]
        simp
      | cons A0 A' =>
        simp only [List.cons_append, List.cons.injEq] at ha
        obtain ⟨hA0, hrest⟩ := ha
        have ihres := ih b (g0 :: A') h B t (by rw [h2, hrest]; rfl) hb
        have hk := h4.symm.trans ihres
        simp only [List.cons_append] at hk
        injection hk with hk0 hks
        rw [show (A0 :: A') ++ (h ++ B) :: t = A0 :: (A' ++ (h ++ B) :: t) from rfl]
        rw [hk0, hks, ← hA0]

theorem splitNl_init_last (l : List Char) :
    ∃ (A : List (List Char)) (U : List Char), splitNl l = A ++ [U] := by
  rcases List.eq_nil_or_concat (splitNl l) with h | ⟨A, U, h⟩
  · exact absurd h (splitNl_ne_nil l)
  · exact ⟨A, U, by rw [h, List.concat_eq_append]⟩

/-- The line decomposition of `u ++ p ++ v` for a newline-free token `p`:
the last line of `u`, the token, and the first line of `v` merge into one
line, surrounded by the initial lines of `u` and the remaining lines of
`v`. -/
theorem splitNl_token (u p v : List Char) (hp : '\n' ∉ p) :
    ∃ (A : List (List Char)) (U B : List Char) (t : List (List Char)),
      splitNl u = A ++ [U] ∧ splitNl v = B :: t ∧
      splitNl (u ++ p ++ v) = A ++ (U ++ p ++ B) :: t := by
  obtain ⟨A, U, hu⟩ := splitNl_init_last u
  obtain ⟨B, t, hv⟩ := List.exists_cons_of_ne_nil (splitNl_ne_nil v)
  have h1 : splitNl (p ++ v) = (p ++ B) :: t := by
    have := splitNl_concat p v [] p B t (by rw [splitNl_single p hp]; rfl) hv
    simpa using this
  have h2 := splitNl_concat u (p ++ v) A U (p ++ B) t hu h1
  refine ⟨A, U, B, t, hu, hv, ?_⟩
  rw [List.append_assoc, h2]
  simp [List.append_assoc]

theorem lastNlIdx_none_iff (l : List Char) : lastNlIdx l = none ↔ '\n' ∉ l := by
  induction l with
  | nil => simp [lastNlIdx]
  | cons c t ih =>
    simp only [lastNlIdx]
    rcases h : lastNlIdx t with _ | j
    · rw [h] at ih
      by_cases hc : c = '\n'
      · simp [hc]
      · simp [hc, ih.mp rfl, Ne.symm hc]
    · rw [h] at ih
      simp only []
      constructor
      · intro h2; exact absurd h2 (by simp)
      · intro h2
        exact absurd (by simpa using ih.mpr (fun m => h2 (by simp [m])) : False) id

theorem lastNlIdx_some_decomp (l : List Char) :
    ∀ (j : Nat), lastNlIdx l = some j →
      ∃ u v, l = u ++ '\n' :: v ∧ u.length = j ∧ '\n' ∉ v := by
  induction l with
  | nil => intro j h; simp [lastNlIdx] at h
  | cons c t ih =>
    intro j h
    simp only [lastNlIdx] at h
    rcases h2 : lastNlIdx t with _ | j'
    · rw [h2] at h
      dsimp only at h
      by_cases hc : c = '\n'
      · rw [if_pos hc] at h
        obtain rfl : 0 = j := Option.some.injEq _ _ ▸ h
        exact ⟨[], t, by simp [hc], rfl, (lastNlIdx_none_iff t).mp h2⟩
      · rw [if_neg hc] at h
        exact absurd h (by simp)
    · rw [h2] at h
      dsimp only at h
      obtain rfl : j' + 1 = j := Option.some.injEq _ _ ▸ h
      obtain ⟨u, v, hu, hlen, hv⟩ := ih j' h2
      exact ⟨c :: u, v, by rw [hu]; rfl, by simp [hlen], hv⟩

/-! ## Idempotence of the blank-line collapse -/

theorem countNl_cons_nl (t : List Char) : countNl ('\n' :: t) = countNl t + 1 := by
  simp [countNl, List.countP_cons]

theorem countNl_cons_of_ne (c : Char) (t : List Char) (h : ¬ c = '\n') :
    countNl (c :: t) = countNl t := by
  simp [countNl, List.countP_cons, h]

theorem countNl_eq_zero (v : List Char) (h : '\n' ∉ v) : countNl v = 0 := by
  induction v with
  | nil => rfl
  | cons c t ih =>
    have hc : ¬ c = '\n' := fun e => h (List.mem_cons.mpr (Or.inl e.symm))
    rw [countNl_cons_of_ne c t hc]
    exact ih (fun m => h (List.mem_cons_of_mem _ m))

theorem takeWhile_dropWhile_nil (l : List Char) :
    (l.dropWhile isSpaceP).takeWhile isSpaceP = [] := by
  induction l with
  | nil => rfl
  | cons c t ih =>
    by_cases h : isSpaceP c = true
    · rw [List.dropWhile_cons, if_pos h]; exact ih
    · rw [List.dropWhile_cons, if_neg h, List.takeWhile_cons, if_neg h]

theorem takeWhile_all_append (v w : List Char) (hv : ∀ c ∈ v, isSpaceP c = true)
    (hw : w.takeWhile isSpaceP = []) :
    (v ++ w).takeWhile isSpaceP = v := by
  induction v with
  | nil => simpa using hw
  | cons c t ih =>
    rw [List.cons_append, List.takeWhile_cons, if_pos (hv c (by simp)),
      ih (fun d hd => hv d (List.mem_cons_of_mem _ hd))]

theorem drop_after_nl (u x : List Char) :
    (u ++ '\n' :: x).drop (u.length + 1) = x := by
  have h1 : u ++ '\n' :: x = (u ++ ['\n']) ++ x := by simp
  have h2 : u.length + 1 = (u ++ ['\n']).length := by simp
  rw [h1, h2, List.drop_left]

/-- When the leading whitespace run of the input holds at most one newline,
the collapse scan leaves that run intact at the front of its output. -/
theorem collapseGo_takeWhile (fuel : Nat) :
    ∀ t : List Char, countNl (t.takeWhile isSpaceP) ≤ 1 →
      (collapseGo fuel t).takeWhile isSpaceP = t.takeWhile isSpaceP := by
  induction fuel with
  | zero => intro t _; rfl
  | succ g ih =>
    intro t hcount
    cases t with
    | nil => rfl
    | cons c t' =>
      by_cases hsp : isSpaceP c = true
      · have htw : (c :: t').takeWhile isSpaceP = c :: t'.takeWhile isSpaceP := by
          rw [List.takeWhile_cons, if_pos hsp]
        by_cases hc : c = '\n'
        · subst hc
          have hcnt : countNl (t'.takeWhile isSpaceP) = 0 := by
            rw [htw, countNl_cons_nl] at hcount; omega
          have h3 : ¬ 3 ≤ countNl ('\n' :: t'.takeWhile isSpaceP) := by
            rw [countNl_cons_nl, hcnt]; omega
          simp only [collapseGo, if_true]
          rw [if_neg h3, List.takeWhile_cons, if_pos hsp, htw, ih t' (by omega)]
        · have hcnt' : countNl (t'.takeWhile isSpaceP) ≤ 1 := by
            rw [htw, countNl_cons_of_ne c _ hc] at hcount; exact hcount
          simp only [collapseGo]
          rw [if_neg hc, List.takeWhile_cons, if_pos hsp, htw, ih t' hcnt']
      · have hc : ¬ c = '\n' := fun e => hsp (by rw [e]; decide)
        simp only [collapseGo]
        rw [if_neg hc, List.takeWhile_cons, if_neg hsp, List.takeWhile_cons,
          if_neg hsp]

/-- Canonical form: every newline-led whitespace run holds at most two
newlines. -/
def smallRunsB : List Char → Bool
  | [] => true
  | c :: t =>
    (if c = '\n' then decide (countNl ('\n' :: t.takeWhile isSpaceP) ≤ 2) else true)
      && smallRunsB t

/-- The collapse scan fixes every list already in canonical form. -/
theorem collapseGo_of_smallRuns (fuel : Nat) :
    ∀ l : List Char, smallRunsB l = true → collapseGo fuel l = l := by
  induction fuel with
  | zero => intro l _; rfl
  | succ g ih =>
    intro l hl
    cases l with
    | nil => rfl
    | cons c t =>
      by_cases hc : c = '\n'
      · subst hc
        simp only [smallRunsB, eq_self_iff_true, if_true, Bool.and_eq_true,
          decide_eq_true_eq] at hl
        have h3 : ¬ 3 ≤ countNl ('\n' :: t.takeWhile isSpaceP) := by omega
        simp only [collapseGo, if_true]
        rw [if_neg h3, ih t hl.2]
      · simp only [smallRunsB, Bool.and_eq_true] at hl
        simp only [collapseGo]
        rw [if_neg hc, ih t hl.2]

/-- The output of the collapse scan (run with enough fuel) is in canonical
form. -/
theorem collapseGo_smallRuns (fuel : Nat) :
    ∀ l : List Char, l.length ≤ fuel → smallRunsB (collapseGo fuel l) = true := by
  induction fuel with
  | zero =>
    intro l h
    have h0 : l = [] := List.length_eq_zero.mp (Nat.le_zero.mp h)
    subst h0; rfl
  | succ g ih =>
    intro l hlen
    cases l with
    | nil => rfl
    | cons c t =>
      by_cases hc : c = '\n'
      · subst hc
        have hlt : t.length ≤ g := by
          simp only [List.length_cons] at hlen; omega
        by_cases h3 : 3 ≤ countNl ('\n' :: t.takeWhile isSpaceP)
        · cases hL : lastNlIdx ('\n' :: t.takeWhile isSpaceP) with
          | none =>
            exact absurd ((lastNlIdx_none_iff _).mp hL) (by simp)
          | some j =>
            obtain ⟨u, v, hdecomp, hulen, hv⟩ := lastNlIdx_some_decomp _ j hL
            have htw : ('\n' :: t).takeWhile isSpaceP
                = '\n' :: t.takeWhile isSpaceP := by
              rw [List.takeWhile_cons, if_pos (by decide)]
            have hsplit : ('\n' :: t.takeWhile isSpaceP)
                ++ ('\n' :: t).dropWhile isSpaceP = '\n' :: t := by
              rw [← htw, List.takeWhile_append_dropWhile]
            have hfull : '\n' :: t
                = u ++ '\n' :: (v ++ ('\n' :: t).dropWhile isSpaceP) := by
              have h8 := hsplit
              rw [hdecomp] at h8
              conv_lhs => rw [← h8]
              simp [List.append_assoc]
            have hdropeq : ('\n' :: t).drop (j + 1)
                = v ++ ('\n' :: t).dropWhile isSpaceP := by
              have h9 := drop_after_nl u (v ++ ('\n' :: t).dropWhile isSpaceP)
              rw [← hfull, hulen] at h9
              exact h9
            have hrestlen : (('\n' :: t).drop (j + 1)).length ≤ g := by
              rw [List.length_drop]
              simp only [List.length_cons]
              omega
            have hv_space : ∀ d ∈ v, isSpaceP d = true := by
              intro d hd
              have hdmem : d ∈ ('\n' :: t.takeWhile isSpaceP) := by
                rw [hdecomp]; simp [hd]
              rcases List.mem_cons.mp hdmem with h | h
              · rw [h]; decide
              · exact List.mem_takeWhile_imp h
            have htwrest : (v ++ ('\n' :: t).dropWhile isSpaceP).takeWhile isSpaceP
                = v :=
              takeWhile_all_append _ _ hv_space (takeWhile_dropWhile_nil _)
            have hcv : countNl v = 0 := countNl_eq_zero v hv
            have hX : (collapseGo g (v ++ ('\n' :: t).dropWhile isSpaceP)).takeWhile
                isSpaceP = v := by
              rw [collapseGo_takeWhile g _ (by rw [htwrest, hcv]; omega), htwrest]
            simp only [collapseGo, if_true]
            rw [if_pos h3, hL]
            dsimp only
            rw [hdropeq]
            simp only [smallRunsB, eq_self_iff_true, if_true, Bool.and_eq_true,
              decide_eq_true_eq]
            refine ⟨?_, ?_, ?_⟩
            · rw [List.takeWhile_cons, if_pos (by decide), hX, countNl_cons_nl,
                countNl_cons_nl, hcv]
            · rw [hX, countNl_cons_nl, hcv]
              omega
            · rw [← hdropeq]
              exact ih _ hrestlen
        · have hle : countNl (t.takeWhile isSpaceP) ≤ 1 := by
            rw [countNl_cons_nl] at h3; omega
          have htX := collapseGo_takeWhile g t hle
          simp only [collapseGo, if_true]
          rw [if_neg h3]
          simp only [smallRunsB, eq_self_iff_true, if_true, Bool.and_eq_true,
            decide_eq_true_eq]
          refine ⟨?_, ih t hlt⟩
          rw [htX, countNl_cons_nl]
          rw [countNl_cons_nl] at h3
          omega
      · simp only [collapseGo]
        rw [if_neg hc]
        simp only [smallRunsB, Bool.and_eq_true]
        refine ⟨by rw [if_neg hc], ih t ?_⟩
        simp only [List.length_cons] at hlen
        omega

theorem collapseL_idem (l : List Char) : collapseL (collapseL l) = collapseL l :=
  collapseGo_of_smallRuns _ _ (collapseGo_smallRuns _ l (by omega))

/-! ## Line structure of the collapse -/

theorem splitNl_cons_nl (w : List Char) : splitNl ('\n' :: w) = [] :: splitNl w := by
  rcases h : splitNl w with _ | ⟨h0, hs⟩
  · exact absurd h (splitNl_ne_nil w)
  · simp only [splitNl, h]
    simp

theorem splitNl_cons_ne (c : Char) (w : List Char) (hc : ¬ c = '\n')
    (h0 : List Char) (hs : List (List Char)) (h : splitNl w = h0 :: hs) :
    splitNl (c :: w) = (c :: h0) :: hs := by
  simp only [splitNl, h]
  rw [if_neg hc]

/-- Upgrade a head-and-tail line relation to a whole-list relation. -/
theorem lines_struct_all (X r : List Char)
    (h1 : (splitNl X).head? = (splitNl r).head?)
    (h2 : ((splitNl X).tail.filter (fun x => !x.isEmpty)).Sublist (splitNl r).tail) :
    ((splitNl X).filter (fun x => !x.isEmpty)).Sublist (splitNl r) := by
  obtain ⟨hX, tX, hXe⟩ := List.exists_cons_of_ne_nil (splitNl_ne_nil X)
  obtain ⟨hr, tr, hre⟩ := List.exists_cons_of_ne_nil (splitNl_ne_nil r)
  rw [hXe, hre] at h1 h2 ⊢
  simp only [List.head?_cons, Option.some.injEq] at h1
  simp only [List.tail_cons] at h2
  subst h1
  simp only [List.filter_cons]
  by_cases he : (!hX.isEmpty) = true
  · rw [if_pos he]
    exact List.Sublist.cons₂ _ h2
  · rw [if_neg he]
    exact List.Sublist.cons _ h2

/-- The collapse scan preserves the first line and maps the remaining
nonempty lines, in order, into the input's remaining lines. -/
theorem collapseGo_lines_struct (fuel : Nat) :
    ∀ l : List Char,
      (splitNl (collapseGo fuel l)).head? = (splitNl l).head? ∧
      ((splitNl (collapseGo fuel l)).tail.filter (fun x => !x.isEmpty)).Sublist
        ((splitNl l).tail) := by
  induction fuel with
  | zero => intro l; exact ⟨rfl, List.filter_sublist _⟩
  | succ g ih =>
    intro l
    cases l with
    | nil => exact ⟨rfl, List.nil_sublist _⟩
    | cons c t =>
      by_cases hc : c = '\n'
      · subst hc
        by_cases h3 : 3 ≤ countNl ('\n' :: t.takeWhile isSpaceP)
        · cases hL : lastNlIdx ('\n' :: t.takeWhile isSpaceP) with
          | none =>
            simp only [collapseGo, if_true]
            rw [if_pos h3, hL]
            dsimp only
            rw [splitNl_cons_nl, splitNl_cons_nl]
            refine ⟨rfl, ?_⟩
            simp only [List.tail_cons]
            exact lines_struct_all _ t (ih t).1 (ih t).2
          | some j =>
            obtain ⟨u, v, hdecomp, hulen, hv⟩ := lastNlIdx_some_decomp _ j hL
            have htw : ('\n' :: t).takeWhile isSpaceP
                = '\n' :: t.takeWhile isSpaceP := by
              rw [List.takeWhile_cons, if_pos (by decide)]
            have hsplit : ('\n' :: t.takeWhile isSpaceP)
                ++ ('\n' :: t).dropWhile isSpaceP = '\n' :: t := by
              rw [← htw, List.takeWhile_append_dropWhile]
            have hfull : '\n' :: t
                = u ++ '\n' :: (v ++ ('\n' :: t).dropWhile isSpaceP) := by
              have h8 := hsplit
              rw [hdecomp] at h8
              conv_lhs => rw [← h8]
              simp [List.append_assoc]
            have hdropeq : ('\n' :: t).drop (j + 1)
                = v ++ ('\n' :: t).dropWhile isSpaceP := by
              have h9 := drop_after_nl u (v ++ ('\n' :: t).dropWhile isSpaceP)
              rw [← hfull, hulen] at h9
              exact h9
            obtain ⟨A, U, hU⟩ := splitNl_init_last u
            have hcat := splitNl_concat u
              ('\n' :: (v ++ ('\n' :: t).dropWhile isSpaceP)) A U []
              (splitNl (v ++ ('\n' :: t).dropWhile isSpaceP)) hU
              (splitNl_cons_nl _)
            have hlin : ([] : List Char) :: splitNl t
                = A ++ (U ++ []) :: splitNl (v ++ ('\n' :: t).dropWhile isSpaceP) := by
              rw [← splitNl_cons_nl t, ← hcat, ← hfull]
            have hrest_sub :
                (splitNl (v ++ ('\n' :: t).dropWhile isSpaceP)).Sublist (splitNl t) := by
              cases A with
              | nil =>
                simp only [List.nil_append] at hlin
                injection hlin with hl1 hl2
                rw [← hl2]
              | cons a A' =>
                simp only [List.cons_append] at hlin
                injection hlin with hl1 hl2
                rw [hl2]
                exact List.Sublist.trans
                  (List.Sublist.cons _ (List.Sublist.refl _))
                  (List.sublist_append_right A' _)
            simp only [collapseGo, if_true]
            rw [if_pos h3, hL]
            dsimp only
            rw [hdropeq, splitNl_cons_nl, splitNl_cons_nl, splitNl_cons_nl]
            refine ⟨rfl, ?_⟩
            simp only [List.tail_cons, List.filter_cons]
            rw [if_neg (by decide)]
            refine List.Sublist.trans ?_ hrest_sub
            have hih := ih (v ++ ('\n' :: t).dropWhile isSpaceP)
            exact lines_struct_all _ _ hih.1 hih.2
        · simp only [collapseGo, if_true]
          rw [if_neg h3, splitNl_cons_nl, splitNl_cons_nl]
          refine ⟨rfl, ?_⟩
          simp only [List.tail_cons]
          exact lines_struct_all _ t (ih t).1 (ih t).2
      · obtain ⟨hX, tX, hXe⟩ :=
          List.exists_cons_of_ne_nil (splitNl_ne_nil (collapseGo g t))
        obtain ⟨hT, tT, hTe⟩ := List.exists_cons_of_ne_nil (splitNl_ne_nil t)
        have hih := ih t
        rw [hXe, hTe] at hih
        simp only [List.head?_cons, Option.some.injEq, List.tail_cons] at hih
        simp only [collapseGo]
        rw [if_neg hc, splitNl_cons_ne c _ hc hX tX hXe,
          splitNl_cons_ne c _ hc hT tT hTe]
        refine ⟨by simp [hih.1], ?_⟩
        simp only [List.tail_cons]
        exact hih.2

/-! ## Idempotence of the bash branch -/

theorem map_fix (f : List Char → List Char) :
    ∀ ls : List (List Char), (∀ l ∈ ls, f l = l) → ls.map f = ls := by
  intro ls h
  induction ls with
  | nil => rfl
  | cons a t ih =>
    simp only [List.map_cons, h a (by simp),
      ih (fun l hl => h l (List.mem_cons_of_mem _ hl))]

/-- A line pass whose function fixes every line (the first one when it is
not a shebang) fixes the whole string. -/
theorem linesMap_fix (f : List Char → List Char) (y : List Char)
    (h0 : ∀ l0, (splitNl y).head? = some l0 →
      prefOf "#!".data (pstripL l0) = false → f l0 = l0)
    (ht : ∀ l ∈ (splitNl y).tail, f l = l) :
    linesMap f y = y := by
  obtain ⟨l0, ls, he⟩ := List.exists_cons_of_ne_nil (splitNl_ne_nil y)
  rw [he] at ht
  simp only [List.tail_cons] at ht
  simp only [linesMap]
  rw [he]
  dsimp only
  rw [map_fix f ls ht]
  by_cases hp : prefOf "#!".data (pstripL l0) = true
  · rw [if_pos hp, ← he, joinNl_splitNl]
  · have hp' : prefOf "#!".data (pstripL l0) = false := by simpa using hp
    rw [if_neg hp, h0 l0 (by rw [he]; rfl) hp', ← he, joinNl_splitNl]

theorem mem_rstripL (c : Char) (l : List Char) (h : c ∈ rstripL l) : c ∈ l := by
  have h1 : c ∈ l.reverse.dropWhile isSpaceP := List.mem_reverse.mp h
  exact List.mem_reverse.mp (List.Sublist.mem h1 (List.dropWhile_sublist _))

theorem bashProcessLine_no_hash (l : List Char) : '#' ∉ bashProcessLine l := by
  by_cases hc : l.contains '#' = true
  · simp only [bashProcessLine, hc, if_true]
    intro hm
    have h1 := mem_rstripL _ _ hm
    have h2 := List.mem_takeWhile_imp h1
    simp at h2
  · simp only [bashProcessLine]
    rw [if_neg hc]
    intro hm
    exact hc (by simpa using hm)

theorem bashProcessLine_fix (l : List Char) (h : l.contains '#' = false) :
    bashProcessLine l = l := by
  simp only [bashProcessLine]
  rw [if_neg (by rw [h]; simp)]

theorem bashProcessLine_idem (l : List Char) :
    bashProcessLine (bashProcessLine l) = bashProcessLine l :=
  bashProcessLine_fix _ (by simpa using bashProcessLine_no_hash l)

theorem mem_bashProcessLine (c : Char) (l : List Char)
    (h : c ∈ bashProcessLine l) : c ∈ l := by
  by_cases hc : l.contains '#' = true
  · simp only [bashProcessLine, hc, if_true] at h
    exact List.Sublist.mem (mem_rstripL _ _ h) (List.takeWhile_sublist _)
  · simp only [bashProcessLine] at h
    rw [if_neg hc] at h
    exact h

/-- The line decomposition of a `linesMap` pass. -/
theorem splitNl_linesMap (f : List Char → List Char)
    (hf : ∀ l, '\n' ∉ l → '\n' ∉ f l) (x : List Char)
    (l0 : List Char) (ls : List (List Char)) (he : splitNl x = l0 :: ls) :
    splitNl (linesMap f x)
      = (if prefOf "#!".data (pstripL l0) then l0 else f l0) :: ls.map f := by
  have h0free : '\n' ∉ l0 := mem_splitNl_no_nl x l0 (by rw [he]; simp)
  have hlsfree : ∀ w ∈ ls, '\n' ∉ w := fun w hw =>
    mem_splitNl_no_nl x w (by rw [he]; exact List.mem_cons_of_mem _ hw)
  simp only [linesMap]
  rw [he]
  dsimp only
  apply splitNl_joinNl
  · intro z hz
    rcases List.mem_cons.mp hz with rfl | hz2
    · by_cases hp : prefOf "#!".data (pstripL l0) = true
      · rw [if_pos hp]; exact h0free
      · rw [if_neg hp]; exact hf l0 h0free
    · obtain ⟨w, hw, rfl⟩ := List.mem_map.mp hz2
      exact hf w (hlsfree w hw)
  · simp

theorem bash_nl_pres (l : List Char) (h : '\n' ∉ l) : '\n' ∉ bashProcessLine l :=
  fun m => h (mem_bashProcessLine _ _ m)

/-- The collapse of a bash pass is a fixed point of the bash pass. -/
theorem bashLines_collapse_fix (x : List Char) :
    bashLines (collapseL (bashLines x)) = collapseL (bashLines x) := by
  obtain ⟨l0, ls, he⟩ := List.exists_cons_of_ne_nil (splitNl_ne_nil x)
  have hsl := splitNl_linesMap bashProcessLine bash_nl_pres x l0 ls he
  have hbl : bashLines x = linesMap bashProcessLine x := rfl
  rw [← hbl] at hsl
  have hcl : collapseL (bashLines x)
      = collapseGo ((bashLines x).length + 1) (bashLines x) := rfl
  have hst := collapseGo_lines_struct ((bashLines x).length + 1) (bashLines x)
  show linesMap bashProcessLine (collapseL (bashLines x)) = collapseL (bashLines x)
  apply linesMap_fix
  · intro m0 hm0 hpf
    rw [hcl, hst.1, hsl] at hm0
    simp only [List.head?_cons, Option.some.injEq] at hm0
    subst hm0
    by_cases hp : prefOf "#!".data (pstripL l0) = true
    · rw [if_pos hp] at hpf
      exact absurd hp (by simp [hpf])
    · rw [if_neg hp]
      exact bashProcessLine_idem l0
  · intro m hm
    by_cases hme : m = []
    · subst hme; exact bashProcessLine_fix [] rfl
    · have hne : (!m.isEmpty) = true := by simp [hme]
      have hmem : m ∈ List.filter (fun z => !z.isEmpty)
          (splitNl (collapseL (bashLines x))).tail :=
        List.mem_filter.mpr ⟨hm, hne⟩
      rw [hcl] at hmem
      have hmem2 := List.Sublist.mem hmem hst.2
      rw [hsl] at hmem2
      simp only [List.tail_cons] at hmem2
      obtain ⟨w, hw, rfl⟩ := List.mem_map.mp hmem2
      exact bashProcessLine_idem w

/-- Idempotence of the bash branch body of `strip_comments`. -/
theorem bash_branch_idem (x : List Char) :
    collapseL (bashLines (collapseL (bashLines x))) = collapseL (bashLines x) := by
  rw [bashLines_collapse_fix, collapseL_idem]

/-! ## Idempotence of the javascript branch -/

theorem collapseGo_head (fuel : Nat) :
    ∀ t : List Char, (collapseGo fuel t).head? = t.head? := by
  induction fuel with
  | zero => intro t; rfl
  | succ g ih =>
    intro t
    cases t with
    | nil => rfl
    | cons c t' =>
      by_cases hc : c = '\n'
      · subst hc
        by_cases h3 : 3 ≤ countNl ('\n' :: t'.takeWhile isSpaceP)
        · cases hL : lastNlIdx ('\n' :: t'.takeWhile isSpaceP) with
          | none =>
            simp only [collapseGo, if_true]
            rw [if_pos h3, hL]
            rfl
          | some j =>
            simp only [collapseGo, if_true]
            rw [if_pos h3, hL]
            rfl
        · simp only [collapseGo, if_true]
          rw [if_neg h3]
          rfl
      · simp only [collapseGo]
        rw [if_neg hc]
        rfl

/-- A newline-free prefix of the collapse output is a prefix of the
input. -/
theorem pref_collapse (p : List Char) (hp : '\n' ∉ p) :
    ∀ (fuel : Nat) (t : List Char),
      prefOf p (collapseGo fuel t) = true → prefOf p t = true := by
  induction p with
  | nil => intro fuel t _; rfl
  | cons p0 p' ih =>
    intro fuel t h
    have hp0 : p0 ≠ '\n' := fun e => hp (by simp [e])
    cases t with
    | nil =>
      cases fuel <;> simp [prefOf] at h
    | cons c t' =>
      cases fuel with
      | zero => exact h
      | succ g =>
        by_cases hc : c = '\n'
        · subst hc
          by_cases h3 : 3 ≤ countNl ('\n' :: t'.takeWhile isSpaceP)
          · cases hL : lastNlIdx ('\n' :: t'.takeWhile isSpaceP) with
            | none =>
              simp only [collapseGo, if_true] at h
              rw [if_pos h3, hL] at h
              dsimp only at h
              simp only [prefOf, Bool.and_eq_true, decide_eq_true_eq] at h ⊢
              exact ⟨h.1, ih (fun m => hp (List.mem_cons_of_mem _ m)) g t' h.2⟩
            | some j =>
              simp only [collapseGo, if_true] at h
              rw [if_pos h3, hL] at h
              dsimp only at h
              simp only [prefOf, Bool.and_eq_true, decide_eq_true_eq] at h
              exact absurd h.1 hp0
          · simp only [collapseGo, if_true] at h
            rw [if_neg h3] at h
            simp only [prefOf, Bool.and_eq_true, decide_eq_true_eq] at h ⊢
            exact ⟨h.1, ih (fun m => hp (List.mem_cons_of_mem _ m)) g t' h.2⟩
        · simp only [collapseGo] at h
          rw [if_neg hc] at h
          simp only [prefOf, Bool.and_eq_true, decide_eq_true_eq] at h ⊢
          exact ⟨h.1, ih (fun m => hp (List.mem_cons_of_mem _ m)) g t' h.2⟩

theorem hasSub_drop (p : List Char) (k : Nat) (l : List Char)
    (h : hasSubL p (l.drop k) = true) : hasSubL p l = true := by
  refine hasSub_of_within p (l.drop k) l ?_ h
  exact (List.drop_suffix k l).isInfix

theorem hasSub_tail (p : List Char) (c : Char) (t : List Char)
    (h : hasSubL p t = true) : hasSubL p (c :: t) = true := by
  simp only [hasSubL, Bool.or_eq_true]
  exact Or.inr h

/-- A newline-free substring of the collapse output is a substring of the
input. -/
theorem collapseGo_hasSub (p : List Char) (hp : '\n' ∉ p) :
    ∀ (fuel : Nat) (l : List Char),
      hasSubL p (collapseGo fuel l) = true → hasSubL p l = true := by
  intro fuel
  induction fuel with
  | zero => intro l h; exact h
  | succ g ih =>
    intro l h
    cases l with
    | nil => exact h
    | cons c t =>
      by_cases hc : c = '\n'
      · subst hc
        by_cases h3 : 3 ≤ countNl ('\n' :: t.takeWhile isSpaceP)
        · cases hL : lastNlIdx ('\n' :: t.takeWhile isSpaceP) with
          | none =>
            simp only [collapseGo, if_true] at h
            rw [if_pos h3, hL] at h
            dsimp only at h
            simp only [hasSubL, Bool.or_eq_true] at h ⊢
            rcases h with h1 | h2
            · exact Or.inl (pref_collapse p hp (g + 1)
                ('\n' :: t) (by simpa [collapseGo, h3, hL] using h1))
            · exact Or.inr (ih t h2)
          | some j =>
            simp only [collapseGo, if_true] at h
            rw [if_pos h3, hL] at h
            dsimp only at h
            -- h : hasSubL p ('\n' :: '\n' :: collapseGo g (('\n'::t).drop (j+1)))
            simp only [hasSubL, Bool.or_eq_true] at h
            rcases h with h1 | h1
            · rcases List.eq_nil_or_concat p with rfl | _
              · simp [hasSubL, prefOf]
              · obtain ⟨r, hr⟩ := (prefOf_iff p _).mp h1
                cases p with
                | nil => simp [hasSubL, prefOf]
                | cons a p' =>
                  simp only [List.cons_append, List.cons.injEq] at hr
                  exact absurd hr.1.symm (fun e => hp (by simp [e]))
            · rcases h1 with h2 | h2
              · obtain ⟨r, hr⟩ := (prefOf_iff p _).mp h2
                cases p with
                | nil => simp [hasSubL, prefOf]
                | cons a p' =>
                  simp only [List.cons_append, List.cons.injEq] at hr
                  exact absurd hr.1.symm (fun e => hp (by simp [e]))
              · have h3x := ih _ h2
                have h4 := hasSub_drop p (j + 1) ('\n' :: t) h3x
                exact h4
        · simp only [collapseGo, if_true] at h
          rw [if_neg h3] at h
          simp only [hasSubL, Bool.or_eq_true] at h ⊢
          rcases h with h1 | h2
          · exact Or.inl (pref_collapse p hp (g + 1)
              ('\n' :: t) (by simpa [collapseGo, h3] using h1))
          · exact Or.inr (ih t h2)
      · simp only [collapseGo] at h
        rw [if_neg hc] at h
        simp only [hasSubL, Bool.or_eq_true] at h ⊢
        rcases h with h1 | h2
        · cases p with
          | nil => exact Or.inl rfl
          | cons a p' =>
            simp only [prefOf, Bool.and_eq_true, decide_eq_true_eq] at h1 ⊢
            exact Or.inl ⟨h1.1,
              pref_collapse p' (fun m => hp (List.mem_cons_of_mem _ m)) g t h1.2⟩
        · exact Or.inr (ih t h2)

/-- A closed block comment exists: some `/*` is followed (disjointly) by
a `*/`. -/
def hasPairB : List Char → Bool
  | [] => false
  | c :: t =>
    (prefOf "/*".data (c :: t) && hasSubL "*/".data ((c :: t).drop 2)) || hasPairB t

theorem hasPairB_tail (c : Char) (t : List Char) (h : hasPairB t = true) :
    hasPairB (c :: t) = true := by
  simp only [hasPairB, Bool.or_eq_true]
  exact Or.inr h

theorem hasPairB_drop (k : Nat) :
    ∀ l : List Char, hasPairB (l.drop k) = true → hasPairB l = true := by
  induction k with
  | zero => intro l h; exact h
  | succ k' ih =>
    intro l h
    cases l with
    | nil => exact h
    | cons c t => exact hasPairB_tail c t (ih t h)

theorem findClose_suffix : ∀ l r : List Char, findClose l = some r → r <:+ l := by
  intro l
  induction l with
  | nil => intro r h; simp [findClose] at h
  | cons c t ih =>
    intro r h
    simp only [findClose] at h
    by_cases hp : prefOf "*/".data (c :: t) = true
    · rw [if_pos hp] at h
      obtain rfl : (c :: t).drop 2 = r := Option.some.injEq _ _ ▸ h
      exact List.drop_suffix 2 (c :: t)
    · rw [if_neg hp] at h
      exact List.IsSuffix.trans (ih r h) ⟨[c], rfl⟩

theorem findClose_none_iff :
    ∀ l : List Char, findClose l = none ↔ hasSubL "*/".data l = false := by
  intro l
  induction l with
  | nil => simp [findClose, hasSubL, prefOf]
  | cons c t ih =>
    simp only [findClose, hasSubL, Bool.or_eq_false_iff]
    by_cases hp : prefOf "*/".data (c :: t) = true
    · rw [if_pos hp]
      simp [hp]
    · rw [if_neg hp]
      simp only [ih]
      constructor
      · intro h; exact ⟨by simpa using hp, h⟩
      · intro h; exact h.2

theorem no_close_no_pair :
    ∀ l : List Char, hasSubL "*/".data (l.drop 1) = false → hasPairB l = false := by
  intro l
  induction l with
  | nil => intro _; rfl
  | cons c t ih =>
    intro h
    simp only [List.drop_succ_cons, List.drop_zero] at h
    have ht1 : hasSubL "*/".data (t.drop 1) = false := by
      cases hq : hasSubL "*/".data (t.drop 1) with
      | false => rfl
      | true => rw [hasSub_drop _ 1 t hq] at h; cases h
    simp only [hasPairB, Bool.or_eq_false_iff, Bool.and_eq_false_iff]
    refine ⟨Or.inr ?_, ih ht1⟩
    exact ht1

theorem blockSubGo_id :
    ∀ (fuel : Nat) (l : List Char), hasPairB l = false → blockSubGo fuel l = l := by
  intro fuel
  induction fuel with
  | zero => intro l _; rfl
  | succ g ih =>
    intro l h
    cases l with
    | nil => rfl
    | cons c t =>
      simp only [hasPairB, Bool.or_eq_false_iff, Bool.and_eq_false_iff] at h
      by_cases hp : prefOf "/*".data (c :: t) = true
      · have hcl : hasSubL "*/".data ((c :: t).drop 2) = false := by
          rcases h.1 with h1 | h1
          · rw [hp] at h1; cases h1
          · exact h1
        have hfc : findClose ((c :: t).drop 2) = none :=
          (findClose_none_iff _).mpr hcl
        simp only [blockSubGo]
        rw [if_pos hp, hfc]
        dsimp only
        rw [ih t h.2]
      · simp only [blockSubGo]
        rw [if_neg hp, ih t h.2]

theorem blockSubGo_head_ne (fuel : Nat) (d : Char) (t : List Char)
    (hd : d ≠ '/') : (blockSubGo fuel (d :: t)).head? = some d := by
  cases fuel with
  | zero => rfl
  | succ g =>
    have hp : prefOf "/*".data (d :: t) = false := by
      cases hq : prefOf "/*".data (d :: t) with
      | false => rfl
      | true =>
        obtain ⟨r, hr⟩ := (prefOf_iff _ _).mp hq
        simp only [show ("/*".data : List Char) = ['/', '*'] from rfl,
          List.cons_append, List.cons.injEq] at hr
        exact absurd hr.1 hd
    simp only [blockSubGo]
    rw [if_neg (by rw [hp]; simp)]
    rfl

theorem pref_slash_star (c : Char) (t : List Char)
    (h : prefOf "/*".data (c :: t) = true) :
    c = '/' ∧ ∃ t'', t = '*' :: t'' := by
  obtain ⟨r, hr⟩ := (prefOf_iff _ _).mp h
  simp only [show ("/*".data : List Char) = ['/', '*'] from rfl,
    List.cons_append, List.nil_append, List.cons.injEq] at hr
  exact ⟨hr.1, r, hr.2⟩

theorem pref_two_slash (c : Char) (t : List Char)
    (h : prefOf "//".data (c :: t) = true) :
    c = '/' ∧ ∃ t'', t = '/' :: t'' := by
  obtain ⟨r, hr⟩ := (prefOf_iff _ _).mp h
  simp only [show ("//".data : List Char) = ['/', '/'] from rfl,
    List.cons_append, List.nil_append, List.cons.injEq] at hr
  exact ⟨hr.1, r, hr.2⟩

/-- The block-comment scan leaves no closed block in its output
(on input free of `//`). -/
theorem blockSubGo_no_pair :
    ∀ (fuel : Nat) (l : List Char), l.length < fuel →
      hasSubL "//".data l = false → hasPairB (blockSubGo fuel l) = false := by
  intro fuel
  induction fuel with
  | zero => intro l h _; exact absurd h (Nat.not_lt_zero _)
  | succ g ih =>
    intro l hlen hds
    cases l with
    | nil => rfl
    | cons c t =>
      have hlen' : t.length < g := by simp only [List.length_cons] at hlen; omega
      have hdst : hasSubL "//".data t = false := by
        cases hq : hasSubL "//".data t with
        | false => rfl
        | true => rw [hasSub_tail _ c t hq] at hds; cases hds
      by_cases hp : prefOf "/*".data (c :: t) = true
      · cases hfc : findClose ((c :: t).drop 2) with
        | some rest =>
          have hsfx : rest <:+ ((c :: t).drop 2) := findClose_suffix _ _ hfc
          have hrestlen : rest.length < g := by
            have h1 := List.IsSuffix.length_le hsfx
            simp only [List.length_drop, List.length_cons] at h1
            omega
          have hrestds : hasSubL "//".data rest = false := by
            cases hq : hasSubL "//".data rest with
            | false => rfl
            | true =>
              have h2 := hasSub_of_within _ rest ((c :: t).drop 2) hsfx.isInfix hq
              rw [hasSub_drop _ 2 (c :: t) h2] at hds
              cases hds
          simp only [blockSubGo]
          rw [if_pos hp, hfc]
          dsimp only
          exact ih rest hrestlen hrestds
        | none =>
          have hcl : hasSubL "*/".data ((c :: t).drop 2) = false :=
            (findClose_none_iff _).mp hfc
          have htp : hasPairB t = false := no_close_no_pair t hcl
          simp only [blockSubGo]
          rw [if_pos hp, hfc]
          dsimp only
          rw [blockSubGo_id g t htp]
          simp only [hasPairB, Bool.or_eq_false_iff, Bool.and_eq_false_iff]
          exact ⟨Or.inr hcl, htp⟩
      · simp only [blockSubGo]
        rw [if_neg hp]
        have hq2 := ih t hlen' hdst
        simp only [hasPairB, Bool.or_eq_false_iff, Bool.and_eq_false_iff]
        refine ⟨Or.inl ?_, hq2⟩
        cases hq : prefOf "/*".data (c :: blockSubGo g t) with
        | false => rfl
        | true =>
          obtain ⟨hc, t'', ht''⟩ := pref_slash_star _ _ hq
          cases t with
          | nil =>
            rw [show blockSubGo g [] = [] by cases g <;> rfl] at ht''
            cases ht''
          | cons d t' =>
            by_cases hd : d = '/'
            · subst hd
              have hpf : prefOf "//".data (c :: '/' :: t') = true := by
                rw [hc, show ("//".data : List Char) = ['/', '/'] from rfl]
                simp [prefOf]
              have hsub2 : hasSubL "//".data (c :: '/' :: t') = true := by
                simp only [hasSubL, Bool.or_eq_true]
                exact Or.inl hpf
              rw [hsub2] at hds
              cases hds
            · have hhead := blockSubGo_head_ne g d t' hd
              rw [ht''] at hhead
              simp only [List.head?_cons, Option.some.injEq] at hhead
              have hpp : prefOf "/*".data (c :: d :: t') = true := by
                rw [hc, ← hhead, show ("/*".data : List Char) = ['/', '*'] from rfl]
                simp [prefOf]
              exact absurd hpp hp

/-- The block-comment scan creates no `//` (on input free of `//`). -/
theorem blockSubGo_no_ds :
    ∀ (fuel : Nat) (l : List Char), hasSubL "//".data l = false →
      hasSubL "//".data (blockSubGo fuel l) = false := by
  intro fuel
  induction fuel with
  | zero => intro l h; exact h
  | succ g ih =>
    intro l hds
    cases l with
    | nil => exact hds
    | cons c t =>
      have hdst : hasSubL "//".data t = false := by
        cases hq : hasSubL "//".data t with
        | false => rfl
        | true => rw [hasSub_tail _ c t hq] at hds; cases hds
      by_cases hp : prefOf "/*".data (c :: t) = true
      · cases hfc : findClose ((c :: t).drop 2) with
        | some rest =>
          have hsfx : rest <:+ ((c :: t).drop 2) := findClose_suffix _ _ hfc
          have hrestds : hasSubL "//".data rest = false := by
            cases hq : hasSubL "//".data rest with
            | false => rfl
            | true =>
              have h2 := hasSub_of_within _ rest ((c :: t).drop 2) hsfx.isInfix hq
              rw [hasSub_drop _ 2 (c :: t) h2] at hds
              cases hds
          simp only [blockSubGo]
          rw [if_pos hp, hfc]
          dsimp only
          exact ih rest hrestds
        | none =>
          obtain ⟨hc, t'', rfl⟩ := pref_slash_star _ _ hp
          simp only [blockSubGo]
          rw [if_pos hp, hfc]
          dsimp only
          simp only [hasSubL, Bool.or_eq_false_iff]
          refine ⟨?_, ih _ hdst⟩
          have hhead := blockSubGo_head_ne g '*' t'' (by decide)
          cases hX : blockSubGo g ('*' :: t'') with
          | nil => rw [hX] at hhead; cases hhead
          | cons x xs =>
            rw [hX] at hhead
            simp only [List.head?_cons, Option.some.injEq] at hhead
            cases hq : prefOf "//".data (c :: x :: xs) with
            | false => rfl
            | true =>
              obtain ⟨_, t3, ht3⟩ := pref_two_slash _ _ hq
              simp only [List.cons.injEq] at ht3
              rw [ht3.1] at hhead
              cases hhead
      · simp only [blockSubGo]
        rw [if_neg hp]
        simp only [hasSubL, Bool.or_eq_false_iff]
        refine ⟨?_, ih t hdst⟩
        cases hq : prefOf "//".data (c :: blockSubGo g t) with
        | false => rfl
        | true =>
          obtain ⟨hc, t3, ht3⟩ := pref_two_slash _ _ hq
          cases t with
          | nil =>
            rw [show blockSubGo g [] = [] by cases g <;> rfl] at ht3
            cases ht3
          | cons d t' =>
            by_cases hd : d = '/'
            · subst hd
              have hpf : prefOf "//".data (c :: '/' :: t') = true := by
                rw [hc, show ("//".data : List Char) = ['/', '/'] from rfl]
                simp [prefOf]
              have hsub2 : hasSubL "//".data (c :: '/' :: t') = true := by
                simp only [hasSubL, Bool.or_eq_true]
                exact Or.inl hpf
              rw [hsub2] at hds
              cases hds
            · have hhead := blockSubGo_head_ne g d t' hd
              rw [ht3] at hhead
              simp only [List.head?_cons, Option.some.injEq] at hhead
              exact absurd hhead.symm hd

/-- A closed block in the collapse output comes from one in the input. -/
theorem collapseGo_pair :
    ∀ (fuel : Nat) (l : List Char),
      hasPairB (collapseGo fuel l) = true → hasPairB l = true := by
  intro fuel
  induction fuel with
  | zero => intro l h; exact h
  | succ g ih =>
    intro l h
    cases l with
    | nil => exact h
    | cons c t =>
      by_cases hc : c = '\n'
      · subst hc
        by_cases h3 : 3 ≤ countNl ('\n' :: t.takeWhile isSpaceP)
        · cases hL : lastNlIdx ('\n' :: t.takeWhile isSpaceP) with
          | none =>
            simp only [collapseGo, if_true] at h
            rw [if_pos h3, hL] at h
            dsimp only at h
            simp only [hasPairB, Bool.or_eq_true, Bool.and_eq_true] at h
            rcases h with ⟨h1, _⟩ | h2
            · obtain ⟨he, _⟩ := pref_slash_star _ _ h1
              cases he
            · exact hasPairB_tail _ t (ih t h2)
          | some j =>
            simp only [collapseGo, if_true] at h
            rw [if_pos h3, hL] at h
            dsimp only at h
            simp only [hasPairB, Bool.or_eq_true, Bool.and_eq_true] at h
            rcases h with ⟨h1, _⟩ | ⟨⟨h1, _⟩ | h2⟩
            · obtain ⟨he, _⟩ := pref_slash_star _ _ h1
              cases he
            · obtain ⟨he, _⟩ := pref_slash_star _ _ h1
              cases he
            · exact hasPairB_drop (j + 1) _ (ih _ h2)
        · simp only [collapseGo, if_true] at h
          rw [if_neg h3] at h
          simp only [hasPairB, Bool.or_eq_true, Bool.and_eq_true] at h
          rcases h with ⟨h1, _⟩ | h2
          · obtain ⟨he, _⟩ := pref_slash_star _ _ h1
            cases he
          · exact hasPairB_tail _ t (ih t h2)
      · simp only [collapseGo] at h
        rw [if_neg hc] at h
        simp only [hasPairB, Bool.or_eq_true, Bool.and_eq_true] at h
        rcases h with ⟨h1, h1b⟩ | h2
        · obtain ⟨he, t3, ht3⟩ := pref_slash_star _ _ h1
          subst he
          have hhd := collapseGo_head g t
          rw [ht3] at hhd
          simp only [List.head?_cons] at hhd
          cases t with
          | nil => simp at hhd
          | cons d t'' =>
            simp only [List.head?_cons, Option.some.injEq] at hhd
            subst hhd
            simp only [hasPairB, Bool.or_eq_true, Bool.and_eq_true]
            have hpf : prefOf "/*".data ('/' :: '*' :: t'') = true := by
              rw [show ("/*".data : List Char) = ['/', '*'] from rfl]
              simp [prefOf]
            refine Or.inl ⟨hpf, ?_⟩
            cases g with
            | zero => exact h1b
            | succ g' =>
              have hX : collapseGo (g' + 1) ('*' :: t'') = '*' :: collapseGo g' t'' := by
                simp only [collapseGo]
                rw [if_neg (by decide)]
              rw [hX] at h1b
              have h4 : hasSubL "*/".data (collapseGo g' t'') = true := h1b
              exact collapseGo_hasSub "*/".data (by decide) g' t'' h4
        · exact hasPairB_tail _ t (ih t h2)

theorem jsCutLine_head (l : List Char) :
    jsCutLine l = [] ∨ (jsCutLine l).head? = l.head? := by
  cases l with
  | nil => exact Or.inl rfl
  | cons c t =>
    by_cases hp : prefOf "//".data (c :: t) = true
    · simp only [jsCutLine]
      rw [if_pos hp]
      exact Or.inl rfl
    · simp only [jsCutLine]
      rw [if_neg hp]
      exact Or.inr rfl

theorem jsCutLine_no_ds (l : List Char) :
    hasSubL "//".data (jsCutLine l) = false := by
  induction l with
  | nil => rfl
  | cons c t ih =>
    by_cases hp : prefOf "//".data (c :: t) = true
    · simp only [jsCutLine]
      rw [if_pos hp]
      rfl
    · simp only [jsCutLine]
      rw [if_neg hp]
      simp only [hasSubL, Bool.or_eq_false_iff]
      refine ⟨?_, ih⟩
      cases hq : prefOf "//".data (c :: jsCutLine t) with
      | false => rfl
      | true =>
        obtain ⟨hc, t3, ht3⟩ := pref_two_slash _ _ hq
        rcases jsCutLine_head t with he | hh
        · rw [he] at ht3
          exact List.noConfusion ht3
        · rw [ht3] at hh
          cases t with
          | nil => exact List.noConfusion (show ([] : List Char) = '/' :: t3 from ht3)
          | cons d t' =>
            simp only [List.head?_cons, Option.some.injEq] at hh
            have hpf : prefOf "//".data (c :: d :: t') = true := by
              rw [hc, ← hh, show ("//".data : List Char) = ['/', '/'] from rfl]
              simp [prefOf]
            exact absurd hpf hp

theorem jsCutLine_fix (l : List Char) (h : hasSubL "//".data l = false) :
    jsCutLine l = l := by
  induction l with
  | nil => rfl
  | cons c t ih =>
    simp only [hasSubL, Bool.or_eq_false_iff] at h
    simp only [jsCutLine]
    rw [if_neg (by rw [h.1]; simp), ih h.2]

theorem jsCutLine_pfx (l : List Char) : jsCutLine l <+: l := by
  induction l with
  | nil => exact List.nil_prefix
  | cons c t ih =>
    by_cases hp : prefOf "//".data (c :: t) = true
    · simp only [jsCutLine]
      rw [if_pos hp]
      exact List.nil_prefix
    · simp only [jsCutLine]
      rw [if_neg hp]
      obtain ⟨w, hw⟩ := ih
      exact ⟨w, by rw [List.cons_append, hw]⟩

theorem js_nl_pres (l : List Char) (h : '\n' ∉ l) : '\n' ∉ jsCutLine l :=
  fun m => h (List.Sublist.mem m (jsCutLine_pfx l).sublist)

/-- The line decomposition of the `//`-removal pass. -/
theorem splitNl_jsLineSub (x : List Char) :
    splitNl (jsLineSub x) = (splitNl x).map jsCutLine := by
  simp only [jsLineSub]
  apply splitNl_joinNl
  · intro z hz
    obtain ⟨w, hw, rfl⟩ := List.mem_map.mp hz
    exact js_nl_pres w (mem_splitNl_no_nl x w hw)
  · simp [splitNl_ne_nil x]

theorem jsLineSub_no_ds (x : List Char) :
    hasSubL "//".data (jsLineSub x) = false := by
  cases hq : hasSubL "//".data (jsLineSub x) with
  | false => rfl
  | true =>
    obtain ⟨L, hL, hL2⟩ := sub_joinNl "//".data (by decide) (by decide) _ hq
    obtain ⟨w, hw, rfl⟩ := List.mem_map.mp hL
    rw [jsCutLine_no_ds w] at hL2
    cases hL2

theorem jsLineSub_fix (y : List Char) (h : hasSubL "//".data y = false) :
    jsLineSub y = y := by
  simp only [jsLineSub]
  rw [map_fix, joinNl_splitNl]
  intro l hl
  apply jsCutLine_fix
  cases hq : hasSubL "//".data l with
  | false => rfl
  | true =>
    rw [hasSub_of_within _ l y (mem_splitNl_within y l hl) hq] at h
    cases h

/-- The javascript branch body and its key fixed-point properties. -/
theorem js_body_no_ds (x : List Char) :
    hasSubL "//".data (blockSub (jsLineSub x)) = false :=
  blockSubGo_no_ds _ _ (jsLineSub_no_ds x)

theorem js_body_no_pair (x : List Char) :
    hasPairB (blockSub (jsLineSub x)) = false :=
  blockSubGo_no_pair _ _ (by omega) (jsLineSub_no_ds x)

/-- The collapse of a javascript pass is a fixed point of the pass. -/
theorem js_collapse_fix (x : List Char) :
    blockSub (jsLineSub (collapseL (blockSub (jsLineSub x))))
      = collapseL (blockSub (jsLineSub x)) := by
  have hyds : hasSubL "//".data (collapseL (blockSub (jsLineSub x))) = false := by
    cases hq : hasSubL "//".data (collapseL (blockSub (jsLineSub x))) with
    | false => rfl
    | true =>
      have h2 := collapseGo_hasSub "//".data (by decide) _ _ hq
      rw [js_body_no_ds x] at h2
      cases h2
  have hypair : hasPairB (collapseL (blockSub (jsLineSub x))) = false := by
    cases hq : hasPairB (collapseL (blockSub (jsLineSub x))) with
    | false => rfl
    | true =>
      have h2 := collapseGo_pair _ _ hq
      rw [js_body_no_pair x] at h2
      cases h2
  rw [jsLineSub_fix _ hyds]
  exact blockSubGo_id _ _ hypair

/-- Idempotence of the javascript branch body of `strip_comments`. -/
theorem js_branch_idem (x : List Char) :
    collapseL (blockSub (jsLineSub (collapseL (blockSub (jsLineSub x)))))
      = collapseL (blockSub (jsLineSub x)) := by
  rw [js_collapse_fix, collapseL_idem]

/-! ## Idempotence of the python branch: the line pass -/

theorem pyScanGo_pfx :
    ∀ (l : List Char) (prev : Option Char) (st : QState),
      pyScanGo l prev st <+: l := by
  intro l
  induction l with
  | nil => intro prev st; exact List.nil_prefix
  | cons c t ih =>
    intro prev st
    by_cases hb : (decide (c = '#') && !(qstep st prev c).inStr) = true
    · simp only [pyScanGo]
      rw [if_pos hb]
      exact List.nil_prefix
    · simp only [pyScanGo]
      rw [if_neg hb]
      obtain ⟨w, hw⟩ := ih (some c) (qstep st prev c)
      exact ⟨w, by rw [List.cons_append, hw]⟩

theorem pyScanGo_idem :
    ∀ (l : List Char) (prev : Option Char) (st : QState),
      pyScanGo (pyScanGo l prev st) prev st = pyScanGo l prev st := by
  intro l
  induction l with
  | nil => intro prev st; rfl
  | cons c t ih =>
    intro prev st
    by_cases hb : (decide (c = '#') && !(qstep st prev c).inStr) = true
    · simp only [pyScanGo]
      rw [if_pos hb]
      rfl
    · simp only [pyScanGo]
      rw [if_neg hb]
      show pyScanGo (c :: pyScanGo t (some c) (qstep st prev c)) prev st
        = c :: pyScanGo t (some c) (qstep st prev c)
      simp only [pyScanGo]
      rw [if_neg hb, ih (some c) (qstep st prev c)]

theorem pyScanGo_prefix_fix :
    ∀ (u l : List Char) (prev : Option Char) (st : QState),
      pyScanGo l prev st = l → u <+: l → pyScanGo u prev st = u := by
  intro u
  induction u with
  | nil => intro l prev st _ _; rfl
  | cons c u' ih =>
    intro l prev st hscan hpre
    obtain ⟨w, hw⟩ := hpre
    cases l with
    | nil =>
      rw [List.cons_append] at hw
      exact List.noConfusion hw
    | cons d t =>
      rw [List.cons_append] at hw
      injection hw with hcd hts
      subst hcd
      have hb : ¬(decide (c = '#') && !(qstep st prev c).inStr) = true := by
        intro hbt
        have h0 : pyScanGo (c :: t) prev st = [] := by
          simp only [pyScanGo]
          rw [if_pos hbt]
        rw [h0] at hscan
        exact List.noConfusion hscan
      have hscan' : pyScanGo t (some c) (qstep st prev c) = t := by
        have h1 := hscan
        simp only [pyScanGo] at h1
        rw [if_neg hb] at h1
        simp only [List.cons.injEq, true_and] at h1
        exact h1
      simp only [pyScanGo]
      rw [if_neg hb, ih t (some c) (qstep st prev c) hscan' ⟨w, hts⟩]

theorem pyScan_of_pfx (u l : List Char) (h : u <+: pyScan l) : pyScan u = u :=
  pyScanGo_prefix_fix u (pyScan l) none ⟨false, ' '⟩
    (pyScanGo_idem l none ⟨false, ' '⟩) h

theorem dropWhile_self (p : Char → Bool) (l : List Char) :
    (l.dropWhile p).dropWhile p = l.dropWhile p := by
  induction l with
  | nil => rfl
  | cons c t ih =>
    by_cases h : p c = true
    · rw [List.dropWhile_cons, if_pos h]; exact ih
    · rw [List.dropWhile_cons, if_neg h, List.dropWhile_cons, if_neg h]

theorem rstripL_idem (l : List Char) : rstripL (rstripL l) = rstripL l := by
  simp only [rstripL, List.reverse_reverse]
  rw [dropWhile_self]

theorem rstripL_pfx (l : List Char) : rstripL l <+: l := by
  conv_rhs => rw [rstripL_decomp l]
  exact ⟨_, rfl⟩

theorem pyProcessLine_idem (l : List Char) :
    pyProcessLine (pyProcessLine l) = pyProcessLine l := by
  by_cases hc : l.contains '#' = true
  · have h1 : pyProcessLine l = rstripL (pyScan l) := by
      simp only [pyProcessLine, hc, if_true]
    rw [h1]
    by_cases hc2 : (rstripL (pyScan l)).contains '#' = true
    · have h2 : pyProcessLine (rstripL (pyScan l))
          = rstripL (pyScan (rstripL (pyScan l))) := by
        simp only [pyProcessLine, hc2, if_true]
      rw [h2, pyScan_of_pfx _ l (rstripL_pfx (pyScan l)), rstripL_idem]
    · simp only [pyProcessLine]
      rw [if_neg hc2]
  · have h1 : pyProcessLine l = l := by
      simp only [pyProcessLine]
      rw [if_neg hc]
    rw [h1, h1]

theorem mem_pyProcessLine (c : Char) (l : List Char)
    (h : c ∈ pyProcessLine l) : c ∈ l := by
  by_cases hc : l.contains '#' = true
  · simp only [pyProcessLine, hc, if_true] at h
    have h1 := mem_rstripL _ _ h
    obtain ⟨w, hw⟩ := pyScanGo_pfx l none ⟨false, ' '⟩
    rw [← hw]
    exact List.mem_append.mpr (Or.inl h1)
  · simp only [pyProcessLine] at h
    rw [if_neg hc] at h
    exact h

theorem py_nl_pres (l : List Char) (h : '\n' ∉ l) : '\n' ∉ pyProcessLine l :=
  fun m => h (mem_pyProcessLine _ _ m)

/-! ## Docstring matches, line by line -/

theorem takeWhile_append_all (p : Char → Bool) (a b : List Char)
    (ha : ∀ c ∈ a, p c = true) :
    (a ++ b).takeWhile p = a ++ b.takeWhile p := by
  induction a with
  | nil => rfl
  | cons c a' ih =>
    rw [List.cons_append, List.takeWhile_cons, if_pos (ha c (by simp)),
      List.cons_append, ih (fun d hd => ha d (List.mem_cons_of_mem _ hd))]

theorem dropWhile_append_all (p : Char → Bool) (a b : List Char)
    (ha : ∀ c ∈ a, p c = true) :
    (a ++ b).dropWhile p = b.dropWhile p := by
  induction a with
  | nil => rfl
  | cons c a' ih =>
    rw [List.cons_append, List.dropWhile_cons, if_pos (ha c (by simp)),
      ih (fun d hd => ha d (List.mem_cons_of_mem _ hd))]

theorem takeWhile_append_not (p : Char → Bool) (a b : List Char)
    (ha : ¬ a.all p = true) :
    (a ++ b).takeWhile p = a.takeWhile p := by
  induction a with
  | nil => simp at ha
  | cons c a' ih =>
    by_cases hc : p c = true
    · have ha' : ¬ a'.all p = true := by
        intro h2
        exact ha (by simp [List.all_cons, hc, h2])
      rw [List.cons_append, List.takeWhile_cons, if_pos hc,
        List.takeWhile_cons, if_pos hc, ih ha']
    · rw [List.cons_append, List.takeWhile_cons, if_neg hc,
        List.takeWhile_cons, if_neg hc]

theorem dropWhile_append_not (p : Char → Bool) (a b : List Char)
    (ha : ¬ a.all p = true) :
    (a ++ b).dropWhile p = a.dropWhile p ++ b := by
  induction a with
  | nil => simp at ha
  | cons c a' ih =>
    by_cases hc : p c = true
    · have ha' : ¬ a'.all p = true := by
        intro h2
        exact ha (by simp [List.all_cons, hc, h2])
      rw [List.cons_append, List.dropWhile_cons, if_pos hc,
        List.dropWhile_cons, if_pos hc, ih ha']
    · rw [List.cons_append, List.dropWhile_cons, if_neg hc,
        List.dropWhile_cons, if_neg hc, List.cons_append]

theorem takeWhile_length_lt (p : Char → Bool) (u : List Char)
    (h : ¬ u.all p = true) : (u.takeWhile p).length < u.length := by
  have h1 := List.IsPrefix.length_le (List.takeWhile_prefix p (l := u))
  rcases Nat.lt_or_ge (u.takeWhile p).length u.length with h2 | h2
  · exact h2
  · exfalso
    have h3 : (u.takeWhile p).length = u.length := by omega
    have h4 := List.IsPrefix.eq_of_length (List.takeWhile_prefix p) h3
    exact h ((List.takeWhile_eq_self_iff).mp h4 |> fun hall => by
      simpa [List.all_eq_true] using hall)

/-- A newline-free prefix pattern ignores everything from the first
newline on. -/
theorem pref_token_nl (p : List Char) (hp : '\n' ∉ p) :
    ∀ (d w : List Char), prefOf p (d ++ '\n' :: w) = prefOf p d := by
  induction p with
  | nil => intro d w; rfl
  | cons p0 p' ih =>
    intro d w
    cases d with
    | nil =>
      simp only [List.nil_append, prefOf]
      have : ¬ (p0 = '\n') := fun e => hp (by simp [e])
      simp [this]
    | cons e d' =>
      simp only [List.cons_append, prefOf, List.append_eq]
      rw [ih (fun m => hp (List.mem_cons_of_mem _ m)) d' w]

theorem closeDS_consumes (q : Char) :
    ∀ (l cs r : List Char), closeDS q l = some (cs, r) → cs ++ r = l := by
  intro l
  induction l with
  | nil => intro cs r h; exact Option.noConfusion h
  | cons c t ih =>
    intro cs r h
    simp only [closeDS] at h
    by_cases hp : prefOf (tripleQ q) (c :: t) = true
    · rw [if_pos hp] at h
      cases he : dsEnd ((c :: t).drop 3) with
      | some k =>
        rw [he] at h
        dsimp only at h
        injection h with h2
        injection h2 with h3 h4
        rw [← h3, ← h4]
        exact List.take_append_drop _ _
      | none =>
        rw [he] at h
        dsimp only at h
        cases hc : closeDS q t with
        | some p =>
          rw [hc] at h
          obtain ⟨cs', r'⟩ := p
          dsimp only at h
          injection h with h2
          injection h2 with h3 h4
          rw [← h3, ← h4, List.cons_append, ih cs' r' hc]
        | none => rw [hc] at h; exact Option.noConfusion h
    · rw [if_neg hp] at h
      cases hc : closeDS q t with
      | some p =>
        rw [hc] at h
        obtain ⟨cs', r'⟩ := p
        dsimp only at h
        injection h with h2
        injection h2 with h3 h4
        rw [← h3, ← h4, List.cons_append, ih cs' r' hc]
      | none => rw [hc] at h; exact Option.noConfusion h

theorem matchDocAt_consumes (q : Char) (z cons rest : List Char)
    (h : matchDocAt q z = some (cons, rest)) : cons ++ rest = z := by
  simp only [matchDocAt] at h
  by_cases hp : prefOf (tripleQ q) (z.drop (z.takeWhile isSpaceP).length) = true
  · rw [if_pos hp] at h
    cases hc : closeDS q ((z.drop (z.takeWhile isSpaceP).length).drop 3) with
    | some p =>
      rw [hc] at h
      obtain ⟨cs', r'⟩ := p
      dsimp only at h
      injection h with h2
      injection h2 with h3 h4
      obtain ⟨r0, hr0⟩ := (prefOf_iff _ _).mp hp
      have h5 := closeDS_consumes q _ _ _ hc
      rw [← h3, ← h4]
      have h6 : z = z.takeWhile isSpaceP ++ z.drop (z.takeWhile isSpaceP).length := by
        rw [drop_len_takeWhile, List.takeWhile_append_dropWhile]
      conv_rhs => rw [h6, hr0]
      rw [hr0] at h5
      have h7 : ((tripleQ q ++ r0).drop 3 : List Char) = r0 := by
        rw [show (tripleQ q ++ r0 : List Char) = q :: q :: q :: r0 from rfl]
        rfl
      rw [h7] at h5
      rw [← h5]
      simp [List.append_assoc]
    | none => rw [hc] at h; exact Option.noConfusion h
  · rw [if_neg hp] at h
    exact Option.noConfusion h

theorem matchDocAt_shape (q : Char) (z cons rest : List Char)
    (h : matchDocAt q z = some (cons, rest)) :
    ∃ cs, cons = z.takeWhile isSpaceP ++ tripleQ q ++ cs := by
  simp only [matchDocAt] at h
  by_cases hp : prefOf (tripleQ q) (z.drop (z.takeWhile isSpaceP).length) = true
  · rw [if_pos hp] at h
    cases hc : closeDS q ((z.drop (z.takeWhile isSpaceP).length).drop 3) with
    | some p =>
      rw [hc] at h
      obtain ⟨cs', r'⟩ := p
      dsimp only at h
      injection h with h2
      injection h2 with h3 h4
      exact ⟨cs', h3.symm⟩
    | none => rw [hc] at h; exact Option.noConfusion h
  · rw [if_neg hp] at h
    exact Option.noConfusion h

theorem matchDocAt_three (q : Char) (z cons rest : List Char)
    (h : matchDocAt q z = some (cons, rest)) : 3 ≤ cons.length := by
  obtain ⟨cs, hcs⟩ := matchDocAt_shape q z cons rest h
  rw [hcs]
  simp only [tripleQ, List.length_append, List.length_cons, List.length_nil]
  omega

theorem dsEnd_no_nl (u : List Char) (hu : '\n' ∉ u) :
    (dsEnd u).isSome = u.all isSpaceP := by
  by_cases ha : u.all isSpaceP = true
  · have ht : u.takeWhile isSpaceP = u :=
      List.takeWhile_eq_self_iff.mpr (List.all_eq_true.mp ha)
    simp only [dsEnd, ht]
    simp only [if_true]
    rw [ha]
    rfl
  · have hlt := takeWhile_length_lt isSpaceP u ha
    simp only [dsEnd]
    rw [if_neg (by omega)]
    have hnone : lastNlIdx (u.takeWhile isSpaceP) = none :=
      (lastNlIdx_none_iff _).mpr
        (fun m => hu (List.Sublist.mem m (List.takeWhile_sublist _)))
    rw [hnone]
    cases hb : u.all isSpaceP with
    | true => exact absurd hb ha
    | false => rfl

theorem dsEnd_append_nl (u w : List Char) (hu : '\n' ∉ u) :
    (dsEnd (u ++ '\n' :: w)).isSome = u.all isSpaceP := by
  by_cases ha : u.all isSpaceP = true
  · have hall : ∀ c ∈ u ++ ['\n'], isSpaceP c = true := by
      intro c hc
      rcases List.mem_append.mp hc with h1 | h1
      · exact (List.all_eq_true.mp ha) c h1
      · simp only [List.mem_singleton] at h1
        rw [h1]
        decide
    have ht : (u ++ '\n' :: w).takeWhile isSpaceP
        = (u ++ ['\n']) ++ w.takeWhile isSpaceP := by
      rw [show u ++ '\n' :: w = (u ++ ['\n']) ++ w by simp]
      exact takeWhile_append_all _ _ _ hall
    simp only [dsEnd]
    rw [ht]
    by_cases hc : ((u ++ ['\n']) ++ w.takeWhile isSpaceP).length
        = (u ++ '\n' :: w).length
    · rw [if_pos hc, ha]
      rfl
    · rw [if_neg hc]
      cases hL : lastNlIdx ((u ++ ['\n']) ++ w.takeWhile isSpaceP) with
      | none =>
        exact absurd ((lastNlIdx_none_iff _).mp hL) (by simp)
      | some j =>
        rw [ha]
        rfl
  · have ht : (u ++ '\n' :: w).takeWhile isSpaceP = u.takeWhile isSpaceP :=
      takeWhile_append_not _ _ _ ha
    have hlt := takeWhile_length_lt isSpaceP u ha
    simp only [dsEnd]
    rw [ht]
    rw [if_neg (by simp only [List.length_append, List.length_cons]; omega)]
    have hnone : lastNlIdx (u.takeWhile isSpaceP) = none :=
      (lastNlIdx_none_iff _).mpr
        (fun m => hu (List.Sublist.mem m (List.takeWhile_sublist _)))
    rw [hnone]
    cases hb : u.all isSpaceP with
    | true => exact absurd hb ha
    | false => rfl

theorem dsEnd_some_shape (l3 : List Char) (k : Nat) (h : dsEnd l3 = some k) :
    l3.drop k = [] ∨ ∃ r', l3.drop k = '\n' :: r' := by
  simp only [dsEnd] at h
  by_cases hc : (l3.takeWhile isSpaceP).length = l3.length
  · rw [if_pos hc] at h
    injection h with h2
    rw [← h2]
    exact Or.inl (List.drop_length l3)
  · rw [if_neg hc] at h
    obtain ⟨u', v', hdec, hulen, _⟩ := lastNlIdx_some_decomp _ k h
    have h8 := List.takeWhile_append_dropWhile isSpaceP l3
    rw [hdec] at h8
    right
    refine ⟨v' ++ l3.dropWhile isSpaceP, ?_⟩
    conv_lhs => rw [← h8]
    rw [← hulen]
    rw [show (u' ++ '\n' :: v') ++ l3.dropWhile isSpaceP
        = u' ++ ('\n' :: (v' ++ l3.dropWhile isSpaceP)) by simp]
    rw [List.drop_left]

theorem closeDS_rest (q : Char) :
    ∀ (l cs r : List Char), closeDS q l = some (cs, r) →
      r = [] ∨ ∃ r', r = '\n' :: r' := by
  intro l
  induction l with
  | nil => intro cs r h; exact Option.noConfusion h
  | cons c t ih =>
    intro cs r h
    simp only [closeDS] at h
    by_cases hp : prefOf (tripleQ q) (c :: t) = true
    · rw [if_pos hp] at h
      cases he : dsEnd ((c :: t).drop 3) with
      | some k =>
        rw [he] at h
        dsimp only at h
        injection h with h2
        injection h2 with h3 h4
        have hshape := dsEnd_some_shape _ k he
        have hdd : ((c :: t).drop 3).drop k = (c :: t).drop (3 + k) := by
          rw [List.drop_drop, Nat.add_comm]
        rw [hdd] at hshape
        rw [← h4]
        exact hshape
      | none =>
        rw [he] at h
        dsimp only at h
        cases hc : closeDS q t with
        | some p =>
          rw [hc] at h
          obtain ⟨cs', r'⟩ := p
          dsimp only at h
          injection h with h2
          injection h2 with h3 h4
          rw [← h4]
          exact ih cs' r' hc
        | none => rw [hc] at h; exact Option.noConfusion h
    · rw [if_neg hp] at h
      cases hc : closeDS q t with
      | some p =>
        rw [hc] at h
        obtain ⟨cs', r'⟩ := p
        dsimp only at h
        injection h with h2
        injection h2 with h3 h4
        rw [← h4]
        exact ih cs' r' hc
      | none => rw [hc] at h; exact Option.noConfusion h

theorem matchDocAt_rest (q : Char) (z cons rest : List Char)
    (h : matchDocAt q z = some (cons, rest)) :
    rest = [] ∨ ∃ r', rest = '\n' :: r' := by
  simp only [matchDocAt] at h
  by_cases hp : prefOf (tripleQ q) (z.drop (z.takeWhile isSpaceP).length) = true
  · rw [if_pos hp] at h
    cases hc : closeDS q ((z.drop (z.takeWhile isSpaceP).length).drop 3) with
    | some p =>
      rw [hc] at h
      obtain ⟨cs', r'⟩ := p
      dsimp only at h
      injection h with h2
      injection h2 with h3 h4
      rw [← h4]
      exact closeDS_rest q _ _ _ hc
    | none => rw [hc] at h; exact Option.noConfusion h
  · rw [if_neg hp] at h
    exact Option.noConfusion h

theorem dsSubGo_fuel (q : Char) :
    ∀ (f1 f2 : Nat) (b : Bool) (l : List Char),
      l.length < f1 → l.length < f2 →
      dsSubGo q f1 b l = dsSubGo q f2 b l := by
  intro f1
  induction f1 with
  | zero => intro f2 b l h1 _; exact absurd h1 (Nat.not_lt_zero _)
  | succ g1 ih =>
    intro f2 b l h1 h2
    cases l with
    | nil =>
      cases f2 with
      | zero => exact absurd h2 (Nat.not_lt_zero _)
      | succ g2 => rfl
    | cons c t =>
      cases f2 with
      | zero => exact absurd h2 (Nat.not_lt_zero _)
      | succ g2 =>
        have hlt : t.length < g1 ∧ t.length < g2 := by
          simp only [List.length_cons] at h1 h2
          omega
        by_cases hb : b = true
        · subst hb
          cases hm : matchDocAt q (c :: t) with
          | some p =>
            obtain ⟨cons, rest⟩ := p
            have hcr := matchDocAt_consumes q _ _ _ hm
            have h3 := matchDocAt_three q _ _ _ hm
            have hrlen : rest.length < g1 ∧ rest.length < g2 := by
              have hl : cons.length + rest.length = (c :: t).length := by
                rw [← hcr]; simp [List.length_append]
              simp only [List.length_cons] at hl h1 h2
              omega
            simp only [dsSubGo, if_true]
            rw [hm]
            dsimp only
            exact ih g2 _ rest hrlen.1 hrlen.2
          | none =>
            simp only [dsSubGo, if_true]
            rw [hm]
            dsimp only
            rw [ih g2 _ t hlt.1 hlt.2]
        · have hb' : b = false := by simpa using hb
          subst hb'
          simp only [dsSubGo, Bool.false_eq_true, if_false]
          rw [ih g2 _ t hlt.1 hlt.2]

theorem dsSubGo_false_line2 (q : Char) :
    ∀ (l0 : List Char), '\n' ∉ l0 → ∀ (fuel : Nat) (t : List Char),
      (l0 ++ '\n' :: t).length < fuel →
      dsSubGo q fuel false (l0 ++ '\n' :: t)
        = l0 ++ '\n' :: dsSubGo q (t.length + 1) true t := by
  intro l0
  induction l0 with
  | nil =>
    intro _ fuel t hf
    cases fuel with
    | zero => exact absurd hf (Nat.not_lt_zero _)
    | succ g =>
      simp only [List.nil_append, dsSubGo, Bool.false_eq_true, if_false]
      have hc : (('\n' : Char) == '\n') = true := by decide
      rw [hc]
      simp only [List.nil_append, List.length_cons] at hf
      rw [dsSubGo_fuel q g (t.length + 1) true t (by omega) (by omega)]
  | cons c l0' ih =>
    intro h0 fuel t hf
    cases fuel with
    | zero => exact absurd hf (Nat.not_lt_zero _)
    | succ g =>
      have hc : ((c == '\n') : Bool) = false := by
        simp only [beq_eq_false_iff_ne, ne_eq]
        exact fun e => h0 (by simp [e])
      simp only [List.cons_append, dsSubGo, Bool.false_eq_true, if_false, hc,
        List.append_eq]
      simp only [List.cons_append, List.length_cons] at hf
      rw [ih (fun m => h0 (List.mem_cons_of_mem _ m)) g t (by omega)]

theorem dsSubGo_true_copy (q : Char) (l0 t : List Char) (h0 : '\n' ∉ l0)
    (hm : matchDocAt q (l0 ++ '\n' :: t) = none) (fuel : Nat)
    (hf : (l0 ++ '\n' :: t).length < fuel) :
    dsSubGo q fuel true (l0 ++ '\n' :: t)
      = l0 ++ '\n' :: dsSubGo q (t.length + 1) true t := by
  cases l0 with
  | nil =>
    cases fuel with
    | zero => exact absurd hf (Nat.not_lt_zero _)
    | succ g =>
      rw [List.nil_append] at hm ⊢
      simp only [dsSubGo, if_true]
      rw [hm]
      dsimp only
      have hc : (('\n' : Char) == '\n') = true := by decide
      rw [hc]
      simp only [List.nil_append, List.length_cons] at hf
      rw [dsSubGo_fuel q g (t.length + 1) true t (by omega) (by omega)]
      rfl
  | cons c l0' =>
    cases fuel with
    | zero => exact absurd hf (Nat.not_lt_zero _)
    | succ g =>
      have hc : ((c == '\n') : Bool) = false := by
        simp only [beq_eq_false_iff_ne, ne_eq]
        exact fun e => h0 (by simp [e])
      rw [List.cons_append] at hm ⊢
      simp only [dsSubGo, if_true]
      rw [hm]
      dsimp only
      rw [hc]
      simp only [List.cons_append, List.length_cons] at hf
      rw [dsSubGo_false_line2 q l0' (fun m => h0 (List.mem_cons_of_mem _ m))
        g t (by simp only [List.length_append, List.length_cons] at hf ⊢; omega)]
      rfl

theorem dsSubGo_true_single (q : Char) (l0 : List Char) (h0 : '\n' ∉ l0)
    (hm : matchDocAt q l0 = none) (fuel : Nat) :
    dsSubGo q fuel true l0 = l0 := by
  cases fuel with
  | zero => rfl
  | succ g =>
    cases l0 with
    | nil => rfl
    | cons c t =>
      have hc : ((c == '\n') : Bool) = false := by
        simp only [beq_eq_false_iff_ne, ne_eq]
        exact fun e => h0 (by simp [e])
      simp only [dsSubGo, if_true]
      rw [hm]
      dsimp only
      rw [hc, dsSubGo_false_noNl q g t (fun m => h0 (List.mem_cons_of_mem _ m))]

/-- A closing triple quote inside a line: the token followed by only
whitespace to the end of the line. -/
def closeInL (q : Char) : List Char → Bool
  | [] => false
  | c :: t =>
    (prefOf (tripleQ q) (c :: t) && ((c :: t).drop 3).all isSpaceP) || closeInL q t

/-- A line opening a docstring: optional whitespace then the token. -/
def openLineB (q : Char) (l : List Char) : Bool :=
  prefOf (tripleQ q) (l.dropWhile isSpaceP)

/-- A docstring match starting at the head position of this line list. -/
def docLines (q : Char) : List (List Char) → Bool
  | [] => false
  | l :: ls =>
    if l.all isSpaceP then docLines q ls
    else openLineB q l
      && (closeInL q ((l.dropWhile isSpaceP).drop 3) || ls.any (closeInL q))

/-- A docstring match starting at some line of the list. -/
def anyDoc (q : Char) : List (List Char) → Bool
  | [] => false
  | l :: ls => docLines q (l :: ls) || anyDoc q ls

theorem closeInL_all_space (q : Char) (hq : isSpaceP q = false) :
    ∀ l : List Char, l.all isSpaceP = true → closeInL q l = false := by
  intro l
  induction l with
  | nil => intro _; rfl
  | cons c t ih =>
    intro h
    simp only [List.all_cons, Bool.and_eq_true] at h
    simp only [closeInL, Bool.or_eq_false_iff, Bool.and_eq_false_iff]
    refine ⟨Or.inl ?_, ih h.2⟩
    cases hp : prefOf (tripleQ q) (c :: t) with
    | false => rfl
    | true =>
      obtain ⟨r, hr⟩ := (prefOf_iff _ _).mp hp
      rw [show (tripleQ q : List Char) = [q, q, q] from rfl] at hr
      simp only [List.cons_append, List.nil_append, List.cons.injEq] at hr
      have h1 := h.1
      rw [hr.1] at h1
      rw [h1] at hq
      exact Bool.noConfusion hq

theorem docLines_space_cons (q : Char) (l : List Char) (ls : List (List Char))
    (h : l.all isSpaceP = true) : docLines q (l :: ls) = docLines q ls := by
  simp only [docLines, h, if_true]

theorem docLines_le_anyDoc (q : Char) :
    ∀ ls : List (List Char), docLines q ls = true → anyDoc q ls = true := by
  intro ls h
  cases ls with
  | nil => exact h
  | cons l ls' =>
    simp only [anyDoc, Bool.or_eq_true]
    exact Or.inl h

theorem anyDoc_tail (q : Char) (l : List Char) (ls : List (List Char))
    (h : anyDoc q ls = true) : anyDoc q (l :: ls) = true := by
  simp only [anyDoc, Bool.or_eq_true]
  exact Or.inr h

theorem anyDoc_space_cons (q : Char) (l : List Char) (ls : List (List Char))
    (h : l.all isSpaceP = true) : anyDoc q (l :: ls) = anyDoc q ls := by
  simp only [anyDoc, docLines_space_cons q l ls h]
  cases ls with
  | nil => simp [anyDoc, docLines]
  | cons m ms =>
    simp only [anyDoc]
    cases docLines q (m :: ms) <;> simp

theorem closeInL_filter_any (q : Char) (hq : isSpaceP q = false) :
    ∀ ls : List (List Char),
      (ls.filter (fun l => !(l.all isSpaceP))).any (closeInL q)
        = ls.any (closeInL q) := by
  intro ls
  induction ls with
  | nil => rfl
  | cons l t ih =>
    by_cases ha : l.all isSpaceP = true
    · have hfa : (!(l.all isSpaceP)) = false := by rw [ha]; rfl
      rw [List.filter_cons, if_neg (by rw [hfa]; simp)]
      simp only [List.any_cons, closeInL_all_space q hq l ha, ih, Bool.false_or]
    · have hfa : (!(l.all isSpaceP)) = true := by
        cases hb : l.all isSpaceP with
        | true => exact absurd hb ha
        | false => rfl
      rw [List.filter_cons, if_pos hfa]
      simp only [List.any_cons, ih]

theorem anyDoc_reduced (q : Char) (hq : isSpaceP q = false) :
    ∀ ls : List (List Char),
      anyDoc q (ls.filter (fun l => !(l.all isSpaceP))) = anyDoc q ls := by
  intro ls
  induction ls with
  | nil => rfl
  | cons l t ih =>
    by_cases ha : l.all isSpaceP = true
    · have hfa : (!(l.all isSpaceP)) = false := by rw [ha]; rfl
      rw [List.filter_cons, if_neg (by rw [hfa]; simp),
        anyDoc_space_cons q l t ha]
      exact ih
    · have hfa : (!(l.all isSpaceP)) = true := by
        cases hb : l.all isSpaceP with
        | true => exact absurd hb ha
        | false => rfl
      rw [List.filter_cons, if_pos hfa]
      simp only [anyDoc, ih]
      have hd : docLines q (l :: t.filter (fun x => !(x.all isSpaceP)))
          = docLines q (l :: t) := by
        simp only [docLines]
        rw [if_neg ha, if_neg ha, closeInL_filter_any q hq t]
      rw [hd]

theorem anyDoc_mono (q : Char) {s t : List (List Char)} (hsub : s.Sublist t) :
    anyDoc q s = true → anyDoc q t = true := by
  induction hsub with
  | slnil => intro h; exact h
  | cons a hsub ih =>
    intro h
    exact anyDoc_tail q a _ (ih h)
  | cons₂ a hsub ih =>
    intro h
    simp only [anyDoc, Bool.or_eq_true] at h ⊢
    rcases h with h1 | h2
    · by_cases ha : a.all isSpaceP = true
      · rw [docLines_space_cons q a _ ha] at h1
        exact Or.inr (ih (docLines_le_anyDoc q _ h1))
      · simp only [docLines] at h1 ⊢
        rw [if_neg ha] at h1 ⊢
        simp only [Bool.and_eq_true, Bool.or_eq_true] at h1 ⊢
        obtain ⟨ho, hrest⟩ := h1
        rcases hrest with hin | hany
        · exact Or.inl ⟨ho, Or.inl hin⟩
        · obtain ⟨x, hx, hcx⟩ := List.any_eq_true.mp hany
          exact Or.inl ⟨ho,
            Or.inr (List.any_eq_true.mpr ⟨x, List.Sublist.mem hx hsub, hcx⟩)⟩
    · exact Or.inr (ih h2)

theorem filter_space_filter_empty (ls : List (List Char)) :
    (ls.filter (fun x => !x.isEmpty)).filter (fun l => !(l.all isSpaceP))
      = ls.filter (fun l => !(l.all isSpaceP)) := by
  induction ls with
  | nil => rfl
  | cons l t ih =>
    by_cases he : l.isEmpty = true
    · have hl : l = [] := List.isEmpty_iff.mp he
      subst hl
      rw [List.filter_cons, if_neg (by simp)]
      rw [List.filter_cons, if_neg (by simp)]
      exact ih
    · have hfe : (!l.isEmpty) = true := by
        cases hb : l.isEmpty with
        | true => exact absurd hb he
        | false => rfl
      rw [List.filter_cons, if_pos hfe]
      by_cases ha : l.all isSpaceP = true
      · have hfa : ¬ ((!(l.all isSpaceP)) = true) := by rw [ha]; simp
        rw [List.filter_cons, if_neg hfa, List.filter_cons, if_neg hfa]
        exact ih
      · have hfa : (!(l.all isSpaceP)) = true := by
          cases hb : l.all isSpaceP with
          | true => exact absurd hb ha
          | false => rfl
        rw [List.filter_cons, if_pos hfa, List.filter_cons, if_pos hfa, ih]

theorem reduced_sub_of_struct (Lin Lout : List (List Char))
    (hin : Lin ≠ []) (hout : Lout ≠ [])
    (hhead : Lout.head? = Lin.head? ∨ Lout.head? = some [])
    (htail : (Lout.tail.filter (fun x => !x.isEmpty)).Sublist Lin.tail) :
    (Lout.filter (fun l => !(l.all isSpaceP))).Sublist
      (Lin.filter (fun l => !(l.all isSpaceP))) := by
  obtain ⟨h0, t0, rfl⟩ := List.exists_cons_of_ne_nil hout
  obtain ⟨g0, s0, rfl⟩ := List.exists_cons_of_ne_nil hin
  simp only [List.head?_cons, Option.some.injEq, List.tail_cons] at hhead htail
  have hstep : (t0.filter (fun l => !(l.all isSpaceP))).Sublist
      (s0.filter (fun l => !(l.all isSpaceP))) := by
    rw [← filter_space_filter_empty t0]
    exact List.Sublist.filter _ htail
  have hskip : (s0.filter (fun l => !(l.all isSpaceP))).Sublist
      ((g0 :: s0).filter (fun l => !(l.all isSpaceP))) := by
    rw [List.filter_cons]
    by_cases hg : (!(g0.all isSpaceP)) = true
    · rw [if_pos hg]
      exact List.Sublist.cons _ (List.Sublist.refl _)
    · rw [if_neg hg]
  rcases hhead with he | he
  · subst he
    rw [List.filter_cons, List.filter_cons]
    by_cases hg : (!(h0.all isSpaceP)) = true
    · rw [if_pos hg, if_pos hg]
      exact List.Sublist.cons₂ _ hstep
    · rw [if_neg hg, if_neg hg]
      exact hstep
  · subst he
    rw [List.filter_cons, if_neg (by simp)]
    exact List.Sublist.trans hstep hskip

/-- No docstring match appears in the collapse (or any pass with the same
line structure) of a match-free string. -/
theorem anyDoc_transfer (q : Char) (hq : isSpaceP q = false)
    (zin zout : List Char)
    (hhead : (splitNl zout).head? = (splitNl zin).head?
      ∨ (splitNl zout).head? = some [])
    (htail : ((splitNl zout).tail.filter (fun x => !x.isEmpty)).Sublist
      (splitNl zin).tail)
    (hin : anyDoc q (splitNl zin) = false) :
    anyDoc q (splitNl zout) = false := by
  cases hq2 : anyDoc q (splitNl zout) with
  | false => rfl
  | true =>
    have h1 : anyDoc q ((splitNl zout).filter (fun l => !(l.all isSpaceP)))
        = true := by
      rw [anyDoc_reduced q hq]
      exact hq2
    have h2 := anyDoc_mono q (reduced_sub_of_struct _ _
      (splitNl_ne_nil zin) (splitNl_ne_nil zout) hhead htail) h1
    rw [anyDoc_reduced q hq] at h2
    rw [h2] at hin
    cases hin

/-! ## Bridging `closeDS` and `matchDocAt` with the line view -/

theorem joinNl_cons_char (c : Char) (t : List Char) (ls : List (List Char)) :
    joinNl ((c :: t) :: ls) = c :: joinNl (t :: ls) := by
  cases ls with
  | nil => rfl
  | cons m ms =>
    rw [joinNl_cons_cons, joinNl_cons_cons]
    rfl

theorem tripleQ_no_nl (q : Char) (hq : q ≠ '\n') : '\n' ∉ tripleQ q := by
  intro hm
  rcases List.mem_cons.mp hm with e | hm2
  · exact hq e.symm
  · rcases List.mem_cons.mp hm2 with e | hm3
    · exact hq e.symm
    · rcases List.mem_cons.mp hm3 with e | hm4
      · exact hq e.symm
      · simp at hm4

theorem pref_tripleQ_len (q : Char) (l : List Char)
    (h : prefOf (tripleQ q) l = true) : 3 ≤ l.length := by
  obtain ⟨r, hr⟩ := (prefOf_iff _ _).mp h
  rw [hr]
  simp [tripleQ, List.length_append]

theorem closeDS_single (q : Char) :
    ∀ cur : List Char, '\n' ∉ cur → (closeDS q cur).isSome = closeInL q cur := by
  intro cur
  induction cur with
  | nil => intro _; rfl
  | cons c t ih =>
    intro hcur
    have hih := ih (fun m => hcur (List.mem_cons_of_mem _ m))
    simp only [closeDS]
    by_cases hp : prefOf (tripleQ q) (c :: t) = true
    · rw [if_pos hp]
      have hu_nl : '\n' ∉ (c :: t).drop 3 := fun m =>
        hcur (List.Sublist.mem m (List.drop_sublist 3 (c :: t)))
      have hds := dsEnd_no_nl _ hu_nl
      cases he : dsEnd ((c :: t).drop 3) with
      | some k =>
        rw [he] at hds
        dsimp only
        have hfirst : closeInL q (c :: t) = true := by
          simp only [closeInL, Bool.or_eq_true, Bool.and_eq_true]
          left
          exact ⟨hp, hds.symm⟩
        rw [hfirst]
        rfl
      | none =>
        rw [he] at hds
        dsimp only
        have hci : closeInL q (c :: t) = closeInL q t := by
          simp only [closeInL, ← hds]
          simp
        rw [hci, ← hih]
        cases hcc : closeDS q t with
        | some p =>
          obtain ⟨a, b⟩ := p
          rfl
        | none => rfl
    · rw [if_neg hp]
      have hpf : prefOf (tripleQ q) (c :: t) = false := by
        cases hb : prefOf (tripleQ q) (c :: t) with
        | true => exact absurd hb hp
        | false => rfl
      have hci : closeInL q (c :: t) = closeInL q t := by
        simp only [closeInL, hpf]
        simp
      rw [hci, ← hih]
      cases hcc : closeDS q t with
      | some p =>
        obtain ⟨a, b⟩ := p
        rfl
      | none => rfl

theorem closeDS_lines (q : Char) (hq : q ≠ '\n') :
    ∀ (ls : List (List Char)), (∀ m ∈ ls, '\n' ∉ m) →
      ∀ (cur : List Char), '\n' ∉ cur →
      (closeDS q (joinNl (cur :: ls))).isSome
        = (closeInL q cur || ls.any (closeInL q)) := by
  intro ls
  induction ls with
  | nil =>
    intro _ cur hcur
    rw [show joinNl [cur] = cur from rfl, closeDS_single q cur hcur]
    simp
  | cons m ls' ih =>
    intro hls cur hcur
    induction cur with
    | nil =>
      rw [show joinNl ([] :: m :: ls') = '\n' :: joinNl (m :: ls') from rfl]
      simp only [closeDS]
      have hpf : ¬ prefOf (tripleQ q) ('\n' :: joinNl (m :: ls')) = true := by
        intro hb
        obtain ⟨r, hr⟩ := (prefOf_iff _ _).mp hb
        rw [show (tripleQ q : List Char) = [q, q, q] from rfl] at hr
        simp only [List.cons_append, List.cons.injEq] at hr
        exact hq hr.1.symm
      rw [if_neg hpf]
      have hihm := ih (fun m' hm' => hls m' (List.mem_cons_of_mem _ hm')) m
        (hls m (by simp))
      rw [show (closeInL q ([] : List Char) || (m :: ls').any (closeInL q))
          = (closeInL q m || ls'.any (closeInL q)) by simp [closeInL, List.any_cons]]
      rw [← hihm]
      cases hcc : closeDS q (joinNl (m :: ls')) with
      | some p =>
        obtain ⟨a, b⟩ := p
        rfl
      | none => rfl
    | cons c t ihc =>
      have hihc := ihc (fun hm2 => hcur (List.mem_cons_of_mem _ hm2))
      have hjoin : joinNl ((c :: t) :: m :: ls') = c :: joinNl (t :: m :: ls') :=
        joinNl_cons_char c t (m :: ls')
      have hsplit2 : c :: joinNl (t :: m :: ls')
          = (c :: t) ++ '\n' :: joinNl (m :: ls') := by
        rw [joinNl_cons_cons]
        rfl
      rw [hjoin]
      simp only [closeDS]
      have hpref_eq : prefOf (tripleQ q) (c :: joinNl (t :: m :: ls'))
          = prefOf (tripleQ q) (c :: t) := by
        rw [hsplit2]
        exact pref_token_nl (tripleQ q) (tripleQ_no_nl q hq) _ _
      by_cases hp : prefOf (tripleQ q) (c :: t) = true
      · rw [if_pos (by rw [hpref_eq]; exact hp)]
        obtain ⟨r, hr⟩ := (prefOf_iff _ _).mp hp
        have hdrop : (c :: joinNl (t :: m :: ls')).drop 3
            = r ++ '\n' :: joinNl (m :: ls') := by
          rw [hsplit2, hr]
          rw [show ((tripleQ q ++ r) ++ '\n' :: joinNl (m :: ls'))
              = tripleQ q ++ (r ++ '\n' :: joinNl (m :: ls')) by
            simp [List.append_assoc]]
          rfl
        rw [hdrop]
        have hr_nl : '\n' ∉ r := by
          intro hm
          exact hcur (by rw [hr]; exact List.mem_append.mpr (Or.inr hm))
        have hu := dsEnd_append_nl r (joinNl (m :: ls')) hr_nl
        have hrdrop : ((c :: t).drop 3 : List Char) = r := by
          rw [hr, show ((tripleQ q ++ r).drop 3 : List Char) = r from rfl]
        cases he : dsEnd (r ++ '\n' :: joinNl (m :: ls')) with
        | some k =>
          rw [he] at hu
          dsimp only
          have hfirst : closeInL q (c :: t) = true := by
            simp only [closeInL, Bool.or_eq_true, Bool.and_eq_true]
            left
            refine ⟨hp, ?_⟩
            rw [hrdrop]
            exact hu.symm
          rw [hfirst]
          rfl
        | none =>
          rw [he] at hu
          dsimp only
          have hci : closeInL q (c :: t) = closeInL q t := by
            simp only [closeInL, hrdrop, ← hu]
            simp
          rw [hci, ← hihc]
          cases hcc : closeDS q (joinNl (t :: m :: ls')) with
          | some p =>
            obtain ⟨a, b⟩ := p
            rfl
          | none => rfl
      · rw [if_neg (by rw [hpref_eq]; exact hp)]
        have hpf : prefOf (tripleQ q) (c :: t) = false := by
          cases hb : prefOf (tripleQ q) (c :: t) with
          | true => exact absurd hb hp
          | false => rfl
        have hci : closeInL q (c :: t) = closeInL q t := by
          simp only [closeInL, hpf]
          simp
        rw [hci, ← hihc]
        cases hcc : closeDS q (joinNl (t :: m :: ls')) with
        | some p =>
          obtain ⟨a, b⟩ := p
          rfl
        | none => rfl

theorem dropWhile_all_nil (p : Char → Bool) (l : List Char)
    (h : l.all p = true) : l.dropWhile p = [] := by
  have h2 := dropWhile_append_all p l [] (List.all_eq_true.mp h)
  simpa using h2

/-- The line view of a docstring match attempt at the start of the
string. -/
theorem matchDoc_lines (q : Char) (hq : q ≠ '\n') :
    ∀ (ls : List (List Char)), ls ≠ [] → (∀ m ∈ ls, '\n' ∉ m) →
      (matchDocAt q (joinNl ls)).isSome = docLines q ls := by
  intro ls
  induction ls with
  | nil => intro h _; exact absurd rfl h
  | cons l ls2 ih =>
    intro _ hfree
    have hl_free : '\n' ∉ l := hfree l (by simp)
    cases ls2 with
    | nil =>
      by_cases ha : l.all isSpaceP = true
      · have hdw : l.dropWhile isSpaceP = [] := dropWhile_all_nil _ _ ha
        rw [show joinNl [l] = l from rfl]
        simp only [matchDocAt]
        rw [drop_len_takeWhile, hdw]
        have hnp : ¬ prefOf (tripleQ q) ([] : List Char) = true := by
          rw [show (tripleQ q : List Char) = [q, q, q] from rfl]
          simp [prefOf]
        rw [if_neg hnp]
        rw [docLines_space_cons q l [] ha]
        rfl
      · rw [show joinNl [l] = l from rfl]
        simp only [matchDocAt]
        rw [drop_len_takeWhile]
        simp only [docLines]
        rw [if_neg ha]
        by_cases hop : prefOf (tripleQ q) (l.dropWhile isSpaceP) = true
        · rw [if_pos hop]
          have hcs := closeDS_single q ((l.dropWhile isSpaceP).drop 3)
            (fun m => hl_free (List.Sublist.mem m
              (List.Sublist.trans (List.drop_sublist 3 _)
                (List.dropWhile_sublist _))))
          rw [show openLineB q l = true from hop]
          cases hcc : closeDS q ((l.dropWhile isSpaceP).drop 3) with
          | some p =>
            obtain ⟨a, b⟩ := p
            rw [hcc] at hcs
            dsimp only
            rw [← hcs]
            simp
          | none =>
            rw [hcc] at hcs
            dsimp only
            rw [← hcs]
            simp
        · rw [if_neg hop]
          rw [show openLineB q l = prefOf (tripleQ q) (l.dropWhile isSpaceP)
            from rfl]
          cases hb : prefOf (tripleQ q) (l.dropWhile isSpaceP) with
          | true => exact absurd hb hop
          | false => rfl
    | cons m ls' =>
      have hmem2 : ∀ x ∈ m :: ls', '\n' ∉ x :=
        fun x hx => hfree x (List.mem_cons_of_mem _ hx)
      have hjoin : joinNl (l :: m :: ls') = l ++ '\n' :: joinNl (m :: ls') :=
        joinNl_cons_cons l m ls'
      by_cases ha : l.all isSpaceP = true
      · have hall : ∀ c ∈ l ++ ['\n'], isSpaceP c = true := by
          intro c hc
          rcases List.mem_append.mp hc with h1 | h1
          · exact (List.all_eq_true.mp ha) c h1
          · simp only [List.mem_singleton] at h1
            rw [h1]
            decide
        have hrz : (l ++ '\n' :: joinNl (m :: ls')).drop
              (((l ++ '\n' :: joinNl (m :: ls')).takeWhile isSpaceP).length)
            = (joinNl (m :: ls')).drop
              (((joinNl (m :: ls')).takeWhile isSpaceP).length) := by
          rw [drop_len_takeWhile, drop_len_takeWhile]
          rw [show l ++ '\n' :: joinNl (m :: ls')
              = (l ++ ['\n']) ++ joinNl (m :: ls') by simp]
          exact dropWhile_append_all _ _ _ hall
        have hiso : (matchDocAt q (l ++ '\n' :: joinNl (m :: ls'))).isSome
            = (matchDocAt q (joinNl (m :: ls'))).isSome := by
          simp only [matchDocAt]
          rw [hrz]
          by_cases hpr : prefOf (tripleQ q)
              ((joinNl (m :: ls')).drop
                (((joinNl (m :: ls')).takeWhile isSpaceP).length)) = true
          · rw [if_pos hpr, if_pos hpr]
            cases hcc : closeDS q
                (((joinNl (m :: ls')).drop
                  (((joinNl (m :: ls')).takeWhile isSpaceP).length)).drop 3) with
            | some p =>
              obtain ⟨a, b⟩ := p
              rfl
            | none => rfl
          · rw [if_neg hpr, if_neg hpr]
        rw [hjoin, hiso, ih (by simp) hmem2, docLines_space_cons q l _ ha]
      · have htw : (l ++ '\n' :: joinNl (m :: ls')).takeWhile isSpaceP
            = l.takeWhile isSpaceP := takeWhile_append_not _ _ _ ha
        have hdw : (l ++ '\n' :: joinNl (m :: ls')).dropWhile isSpaceP
            = l.dropWhile isSpaceP ++ '\n' :: joinNl (m :: ls') :=
          dropWhile_append_not _ _ _ ha
        rw [hjoin]
        simp only [matchDocAt]
        rw [drop_len_takeWhile, hdw]
        simp only [docLines]
        rw [if_neg ha]
        have hpeq : prefOf (tripleQ q)
            (l.dropWhile isSpaceP ++ '\n' :: joinNl (m :: ls'))
            = prefOf (tripleQ q) (l.dropWhile isSpaceP) :=
          pref_token_nl (tripleQ q) (tripleQ_no_nl q hq) _ _
        by_cases hop : prefOf (tripleQ q) (l.dropWhile isSpaceP) = true
        · rw [if_pos (by rw [hpeq]; exact hop)]
          obtain ⟨r, hr⟩ := (prefOf_iff _ _).mp hop
          have hdrop3 : ((l.dropWhile isSpaceP ++ '\n' :: joinNl (m :: ls')).drop 3
              : List Char) = r ++ '\n' :: joinNl (m :: ls') := by
            rw [hr, show ((tripleQ q ++ r) ++ '\n' :: joinNl (m :: ls'))
                = tripleQ q ++ (r ++ '\n' :: joinNl (m :: ls')) by
              simp [List.append_assoc]]
            rfl
          rw [hdrop3]
          have hr_nl : '\n' ∉ r := by
            intro hm2
            apply hl_free
            exact List.Sublist.mem (by rw [hr]; exact List.mem_append.mpr (Or.inr hm2))
              (List.dropWhile_sublist _)
          have hjr : r ++ '\n' :: joinNl (m :: ls') = joinNl (r :: m :: ls') := by
            rw [joinNl_cons_cons]
          rw [hjr]
          have hcl := closeDS_lines q hq (m :: ls') hmem2 r hr_nl
          have hr3 : ((l.dropWhile isSpaceP).drop 3 : List Char) = r := by
            rw [hr, show ((tripleQ q ++ r).drop 3 : List Char) = r from rfl]
          rw [show openLineB q l = true from hop, hr3]
          cases hcc : closeDS q (joinNl (r :: m :: ls')) with
          | some p =>
            obtain ⟨a, b⟩ := p
            rw [hcc] at hcl
            dsimp only
            rw [← hcl]
            simp
          | none =>
            rw [hcc] at hcl
            dsimp only
            rw [← hcl]
            simp
        · rw [if_neg (by rw [hpeq]; exact hop)]
          rw [show openLineB q l = prefOf (tripleQ q) (l.dropWhile isSpaceP)
            from rfl]
          cases hb : prefOf (tripleQ q) (l.dropWhile isSpaceP) with
          | true => exact absurd hb hop
          | false => rfl

/-! ## The docstring scan: line structure and residual -/

theorem lines_struct_all2 (X r : List Char)
    (h1 : (splitNl X).head? = (splitNl r).head? ∨ (splitNl X).head? = some [])
    (h2 : ((splitNl X).tail.filter (fun x => !x.isEmpty)).Sublist (splitNl r).tail) :
    ((splitNl X).filter (fun x => !x.isEmpty)).Sublist (splitNl r) := by
  rcases h1 with h1 | h1
  · exact lines_struct_all X r h1 h2
  · obtain ⟨hX, tX, hXe⟩ := List.exists_cons_of_ne_nil (splitNl_ne_nil X)
    rw [hXe] at h1 h2 ⊢
    simp only [List.head?_cons, Option.some.injEq] at h1
    subst h1
    simp only [List.tail_cons] at h2
    rw [List.filter_cons, if_neg (by simp)]
    obtain ⟨hr, tr, hre⟩ := List.exists_cons_of_ne_nil (splitNl_ne_nil r)
    rw [hre] at h2 ⊢
    simp only [List.tail_cons] at h2
    exact List.Sublist.cons _ h2

theorem docLines_false_of_anyDoc (q : Char) (ls : List (List Char))
    (h : anyDoc q ls = false) : docLines q ls = false := by
  cases hb : docLines q ls with
  | false => rfl
  | true =>
    rw [docLines_le_anyDoc q ls hb] at h
    cases h

theorem any_close_out (q : Char) (lsin lsout : List (List Char))
    (hin : lsin ≠ []) (hout : lsout ≠ [])
    (hhead : lsout.head? = lsin.head? ∨ lsout.head? = some [])
    (htail : (lsout.tail.filter (fun x => !x.isEmpty)).Sublist lsin.tail)
    (h : lsin.any (closeInL q) = false) :
    lsout.any (closeInL q) = false := by
  cases hb : lsout.any (closeInL q) with
  | false => rfl
  | true =>
    exfalso
    obtain ⟨x, hx, hcx⟩ := List.any_eq_true.mp hb
    have hxin : x ∈ lsin := by
      obtain ⟨h0, t0, rfl⟩ := List.exists_cons_of_ne_nil hout
      rcases List.mem_cons.mp hx with rfl | hx2
      · rcases hhead with he | he
        · simp only [List.head?_cons] at he
          exact List.mem_of_mem_head? (by rw [← he]; rfl)
        · simp only [List.head?_cons, Option.some.injEq] at he
          subst he
          rw [show closeInL q ([] : List Char) = false from rfl] at hcx
          cases hcx
      · have hxne : x ≠ [] := by
          intro he
          subst he
          rw [show closeInL q ([] : List Char) = false from rfl] at hcx
          cases hcx
        have hxf : x ∈ (t0.filter (fun z => !z.isEmpty)) :=
          List.mem_filter.mpr ⟨hx2, by simp [hxne]⟩
        have := List.Sublist.mem hxf (by simpa using htail)
        obtain ⟨g0, s0, rfl⟩ := List.exists_cons_of_ne_nil hin
        exact List.mem_cons_of_mem _ (by simpa using this)
    rw [List.any_eq_true.mpr ⟨x, hxin, hcx⟩] at h
    cases h

theorem splitNl_tail_of_concat (cons r' s : List Char)
    (hs : s = cons ++ '\n' :: r') :
    (splitNl r').Sublist (splitNl s).tail := by
  obtain ⟨A, U, hU⟩ := splitNl_init_last cons
  have hcat := splitNl_concat cons ('\n' :: r') A U [] (splitNl r') hU
    (splitNl_cons_nl r')
  rw [← hs] at hcat
  cases A with
  | nil =>
    rw [hcat]
    simp only [List.nil_append, List.tail_cons]
    exact List.Sublist.refl _
  | cons a A' =>
    rw [hcat]
    simp only [List.cons_append, List.tail_cons]
    exact List.Sublist.trans (List.Sublist.cons _ (List.Sublist.refl _))
      (List.sublist_append_right A' _)

/-- Structure and residual of the docstring scan: the output keeps the
first line (or blanks it), embeds its remaining nonempty lines in order
into the input's remaining lines, and admits no further docstring
match. -/
theorem ds_master (q : Char) (hq : q ≠ '\n') :
    ∀ (n : Nat) (s : List Char), s.length ≤ n →
      ((splitNl (dsSub q s)).head? = (splitNl s).head?
        ∨ (splitNl (dsSub q s)).head? = some []) ∧
      ((splitNl (dsSub q s)).tail.filter (fun x => !x.isEmpty)).Sublist
        (splitNl s).tail ∧
      anyDoc q (splitNl (dsSub q s)) = false := by
  intro n
  induction n with
  | zero =>
    intro s hlen
    have hs : s = [] := List.length_eq_zero.mp (Nat.le_zero.mp hlen)
    subst hs
    exact ⟨Or.inl rfl, List.nil_sublist _, rfl⟩
  | succ n' ih =>
    intro s hlen
    cases hm : matchDocAt q s with
    | none =>
      by_cases hnl : '\n' ∈ s
      · obtain ⟨su, hsu⟩ := firstLine_decomp s hnl
        have hL0nl : '\n' ∉ firstLineL s := no_nl_firstLine s
        have hcopy : dsSub q s = firstLineL s ++ '\n' :: dsSub q su := by
          show dsSubGo q (s.length + 1) true s = _
          conv_lhs => rw [hsu]
          rw [dsSubGo_true_copy q (firstLineL s) su hL0nl
            (by rw [← hsu]; exact hm)
            ((firstLineL s ++ '\n' :: su).length + 1) (by omega)]
          rfl
        have hlines_out : splitNl (dsSub q s)
            = firstLineL s :: splitNl (dsSub q su) := by
          rw [hcopy]
          exact splitNl_append_nl _ _ hL0nl
        have hlines_in : splitNl s = firstLineL s :: splitNl su := by
          conv_lhs => rw [hsu]
          exact splitNl_append_nl _ _ hL0nl
        have hslen : s.length = (firstLineL s).length + 1 + su.length := by
          conv_lhs => rw [hsu]
          simp only [List.length_append, List.length_cons]
          omega
        obtain ⟨ihh, iht, ihr⟩ := ih su (by omega)
        have hjo : joinNl (firstLineL s :: splitNl su) = s := by
          obtain ⟨g0, gs, hge⟩ := List.exists_cons_of_ne_nil (splitNl_ne_nil su)
          rw [hge, joinNl_cons_cons, ← hge, joinNl_splitNl, ← hsu]
        have hdl_in : docLines q (firstLineL s :: splitNl su) = false := by
          have hmd := matchDoc_lines q hq (firstLineL s :: splitNl su)
            (by simp)
            (by
              intro m hm2
              rcases List.mem_cons.mp hm2 with rfl | hm3
              · exact hL0nl
              · exact mem_splitNl_no_nl su m hm3)
          rw [hjo, hm] at hmd
          exact hmd.symm
        have hdl_out : docLines q
            (firstLineL s :: splitNl (dsSub q su)) = false := by
          by_cases ha : (firstLineL s).all isSpaceP = true
          · rw [docLines_space_cons q _ _ ha]
            exact docLines_false_of_anyDoc q _ ihr
          · simp only [docLines] at hdl_in ⊢
            rw [if_neg ha] at hdl_in ⊢
            simp only [Bool.and_eq_false_iff, Bool.or_eq_false_iff] at hdl_in ⊢
            rcases hdl_in with h1 | ⟨h2, h3⟩
            · exact Or.inl h1
            · refine Or.inr ⟨h2, ?_⟩
              exact any_close_out q (splitNl su) (splitNl (dsSub q su))
                (splitNl_ne_nil su) (splitNl_ne_nil _) ihh iht h3
        refine ⟨?_, ?_, ?_⟩
        · rw [hlines_out, hlines_in]
          exact Or.inl rfl
        · rw [hlines_out, hlines_in]
          simp only [List.tail_cons]
          exact lines_struct_all2 _ _ ihh iht
        · rw [hlines_out]
          simp only [anyDoc]
          rw [hdl_out, ihr]
          rfl
      · have hout : dsSub q s = s := dsSubGo_true_single q s hnl hm _
        rw [hout]
        refine ⟨Or.inl rfl, List.filter_sublist _, ?_⟩
        rw [splitNl_single s hnl]
        have hmd := matchDoc_lines q hq [s] (by simp)
          (by
            intro m hm2
            rcases List.mem_cons.mp hm2 with rfl | hm3
            · exact hnl
            · simp at hm3)
        rw [show joinNl [s] = s from rfl, hm] at hmd
        simp only [anyDoc]
        rw [← hmd]
        rfl
    | some p =>
      obtain ⟨cons, rest⟩ := p
      have hcr := matchDocAt_consumes q _ _ _ hm
      have h3c := matchDocAt_three q _ _ _ hm
      cases s with
      | nil =>
        rw [show matchDocAt q [] = none from rfl] at hm
        exact Option.noConfusion hm
      | cons c t =>
        have hunfold : dsSub q (c :: t)
            = dsSubGo q ((c :: t).length) (cons.getLast? == some '\n') rest := by
          show dsSubGo q ((c :: t).length + 1) true (c :: t) = _
          simp only [dsSubGo, if_true]
          rw [hm]
        rcases matchDocAt_rest q _ _ _ hm with hre | ⟨r', hre⟩
        · subst hre
          have hnil : ∀ (f : Nat) (b : Bool), dsSubGo q f b ([] : List Char) = [] := by
            intro f b
            cases f <;> rfl
          have hout : dsSub q (c :: t) = [] := by
            rw [hunfold]
            exact hnil _ _
          rw [hout]
          exact ⟨Or.inr rfl, List.nil_sublist _, rfl⟩
        · subst hre
          have hrlen : ('\n' :: r').length < (c :: t).length := by
            have hl : cons.length + ('\n' :: r').length = (c :: t).length := by
              rw [← hcr]
              simp [List.length_append]
            simp only [List.length_cons] at hl ⊢
            omega
          have hnorm : dsSubGo q ((c :: t).length)
                (cons.getLast? == some '\n') ('\n' :: r')
              = dsSubGo q (('\n' :: r').length + 1)
                (cons.getLast? == some '\n') ('\n' :: r') :=
            dsSubGo_fuel q _ _ _ _ hrlen (by omega)
          cases hfl : (cons.getLast? == some '\n') with
          | true =>
            have hout : dsSub q (c :: t) = dsSub q ('\n' :: r') := by
              rw [hunfold, hnorm, hfl]
              rfl
            obtain ⟨ihh, iht, ihr⟩ := ih ('\n' :: r')
              (by
                simp only [List.length_cons] at hrlen hlen ⊢
                omega)
            rw [hout]
            refine ⟨?_, ?_, ihr⟩
            · rcases ihh with h1 | h1
              · rw [splitNl_cons_nl r'] at h1
                simp only [List.head?_cons] at h1
                exact Or.inr h1
              · exact Or.inr h1
            · refine List.Sublist.trans iht ?_
              rw [splitNl_cons_nl r']
              simp only [List.tail_cons]
              exact splitNl_tail_of_concat cons r' (c :: t) hcr.symm
          | false =>
            have hout : dsSub q (c :: t) = '\n' :: dsSub q r' := by
              rw [hunfold, hnorm, hfl]
              show dsSubGo q ((r'.length + 1) + 1) false ('\n' :: r') = _
              simp only [dsSubGo, Bool.false_eq_true, if_false]
              rw [show (('\n' : Char) == '\n') = true from by decide]
              rfl
            obtain ⟨ihh, iht, ihr⟩ := ih r'
              (by
                simp only [List.length_cons] at hrlen hlen ⊢
                omega)
            rw [hout, splitNl_cons_nl]
            refine ⟨Or.inr rfl, ?_, ?_⟩
            · simp only [List.tail_cons]
              refine List.Sublist.trans (lines_struct_all2 _ _ ihh iht) ?_
              exact splitNl_tail_of_concat cons r' (c :: t) hcr.symm
            · rw [anyDoc_space_cons q [] _ (by rfl)]
              exact ihr

/-- The docstring scan fixes every match-free string. -/
theorem dsSub_id_of_noDoc (q : Char) (hq : q ≠ '\n') :
    ∀ (n : Nat) (y : List Char), y.length ≤ n →
      anyDoc q (splitNl y) = false → dsSub q y = y := by
  intro n
  induction n with
  | zero =>
    intro y hlen _
    have hy : y = [] := List.length_eq_zero.mp (Nat.le_zero.mp hlen)
    subst hy
    rfl
  | succ n' ih =>
    intro y hlen hany
    have hmd := matchDoc_lines q hq (splitNl y) (splitNl_ne_nil y)
      (mem_splitNl_no_nl y)
    rw [joinNl_splitNl] at hmd
    have hdl : docLines q (splitNl y) = false := docLines_false_of_anyDoc q _ hany
    rw [hdl] at hmd
    have hm : matchDocAt q y = none := by
      cases hmm : matchDocAt q y with
      | none => rfl
      | some p =>
        rw [hmm] at hmd
        exact Bool.noConfusion hmd
    by_cases hnl : '\n' ∈ y
    · obtain ⟨su, hsu⟩ := firstLine_decomp y hnl
      have hL0nl : '\n' ∉ firstLineL y := no_nl_firstLine y
      have hcopy : dsSub q y = firstLineL y ++ '\n' :: dsSub q su := by
        show dsSubGo q (y.length + 1) true y = _
        conv_lhs => rw [hsu]
        rw [dsSubGo_true_copy q (firstLineL y) su hL0nl
          (by rw [← hsu]; exact hm)
          ((firstLineL y ++ '\n' :: su).length + 1) (by omega)]
        rfl
      have hlines_in : splitNl y = firstLineL y :: splitNl su := by
        conv_lhs => rw [hsu]
        exact splitNl_append_nl _ _ hL0nl
      have hany_su : anyDoc q (splitNl su) = false := by
        rw [hlines_in] at hany
        simp only [anyDoc, Bool.or_eq_false_iff] at hany
        exact hany.2
      have hslen : y.length = (firstLineL y).length + 1 + su.length := by
        conv_lhs => rw [hsu]
        simp only [List.length_append, List.length_cons]
        omega
      rw [hcopy, ih su (by omega) hany_su, ← hsu]
    · exact dsSubGo_true_single q y hnl hm _

/-! ## The python branch: fixed point and idempotence -/

theorem pyProcessLine_nil : pyProcessLine ([] : List Char) = [] := rfl

/-- The collapse of the python body is a fixed point of each of its three
passes. -/
theorem py_collapse_fix (x : List Char) :
    pyLines (collapseL (dsSub '\'' (dsSub '"' (pyLines x))))
        = collapseL (dsSub '\'' (dsSub '"' (pyLines x)))
      ∧ dsSub '"' (collapseL (dsSub '\'' (dsSub '"' (pyLines x))))
        = collapseL (dsSub '\'' (dsSub '"' (pyLines x)))
      ∧ dsSub '\'' (collapseL (dsSub '\'' (dsSub '"' (pyLines x))))
        = collapseL (dsSub '\'' (dsSub '"' (pyLines x))) := by
  obtain ⟨l0, ls, he⟩ := List.exists_cons_of_ne_nil (splitNl_ne_nil x)
  have hsl := splitNl_linesMap pyProcessLine py_nl_pres x l0 ls he
  have hw1e : pyLines x = linesMap pyProcessLine x := rfl
  rw [← hw1e] at hsl
  obtain ⟨hh2, ht2, hres2⟩ :=
    ds_master '"' (by decide) (pyLines x).length (pyLines x) (Nat.le_refl _)
  obtain ⟨hh3, ht3, hres3⟩ :=
    ds_master '\'' (by decide) (dsSub '"' (pyLines x)).length
      (dsSub '"' (pyLines x)) (Nat.le_refl _)
  have hcolS := collapseGo_lines_struct
    ((dsSub '\'' (dsSub '"' (pyLines x))).length + 1)
    (dsSub '\'' (dsSub '"' (pyLines x)))
  have hcle : collapseL (dsSub '\'' (dsSub '"' (pyLines x)))
      = collapseGo ((dsSub '\'' (dsSub '"' (pyLines x))).length + 1)
        (dsSub '\'' (dsSub '"' (pyLines x))) := rfl
  rw [← hcle] at hcolS
  have hq2 : anyDoc '"' (splitNl (dsSub '\'' (dsSub '"' (pyLines x)))) = false :=
    anyDoc_transfer '"' (by decide) _ _ hh3 ht3 hres2
  have hyq2 : anyDoc '"'
      (splitNl (collapseL (dsSub '\'' (dsSub '"' (pyLines x))))) = false :=
    anyDoc_transfer '"' (by decide) _ _ (Or.inl hcolS.1) hcolS.2 hq2
  have hyq1 : anyDoc '\''
      (splitNl (collapseL (dsSub '\'' (dsSub '"' (pyLines x))))) = false :=
    anyDoc_transfer '\'' (by decide) _ _ (Or.inl hcolS.1) hcolS.2 hres3
  refine ⟨?_, dsSub_id_of_noDoc '"' (by decide) _ _ (Nat.le_refl _) hyq2,
    dsSub_id_of_noDoc '\'' (by decide) _ _ (Nat.le_refl _) hyq1⟩
  show linesMap pyProcessLine _ = _
  apply linesMap_fix
  · intro m0 hm0 hpf
    rw [hcolS.1] at hm0
    rcases hh3 with h3e | h3e
    · rw [h3e] at hm0
      rcases hh2 with h2e | h2e
      · rw [h2e, hsl] at hm0
        simp only [List.head?_cons, Option.some.injEq] at hm0
        by_cases hp : prefOf "#!".data (pstripL l0) = true
        · rw [if_pos hp] at hm0
          subst hm0
          exact absurd hp (by rw [hpf]; simp)
        · rw [if_neg hp] at hm0
          subst hm0
          exact pyProcessLine_idem l0
      · rw [h2e] at hm0
        simp only [Option.some.injEq] at hm0
        rw [← hm0]
        exact pyProcessLine_nil
    · rw [h3e] at hm0
      simp only [Option.some.injEq] at hm0
      rw [← hm0]
      exact pyProcessLine_nil
  · intro m hmem
    by_cases hme : m = []
    · subst hme
      exact pyProcessLine_nil
    · have hne : (!m.isEmpty) = true := by simp [hme]
      have s1 : m ∈ (splitNl (dsSub '\'' (dsSub '"' (pyLines x)))).tail :=
        List.Sublist.mem (List.mem_filter.mpr ⟨hmem, hne⟩) hcolS.2
      have s2 : m ∈ (splitNl (dsSub '"' (pyLines x))).tail :=
        List.Sublist.mem (List.mem_filter.mpr ⟨s1, hne⟩) ht3
      have s3 : m ∈ (splitNl (pyLines x)).tail :=
        List.Sublist.mem (List.mem_filter.mpr ⟨s2, hne⟩) ht2
      rw [hsl] at s3
      simp only [List.tail_cons] at s3
      obtain ⟨w, hw, rfl⟩ := List.mem_map.mp s3
      exact pyProcessLine_idem w

/-- Idempotence of the python branch body of `strip_comments`. -/
theorem py_branch_idem (x : List Char) :
    collapseL (dsSub '\'' (dsSub '"' (pyLines
        (collapseL (dsSub '\'' (dsSub '"' (pyLines x)))))))
      = collapseL (dsSub '\'' (dsSub '"' (pyLines x))) := by
  obtain ⟨h1, h2, h3⟩ := py_collapse_fix x
  rw [h1, h2, h3, collapseL_idem]

/-- C4: comment stripping is idempotent on its own output: for every code
string and each language L in {python, bash, javascript},
`strip_comments (strip_comments code L) L = strip_comments code L`. -/
theorem strip_comments_idem (code : String) (L : String)
    (hL : L = "python" ∨ L = "bash" ∨ L = "javascript") :
    strip_comments (strip_comments code (some L)) (some L)
      = strip_comments code (some L) := by
  rcases hL with rfl | rfl | rfl
  · have h1 : ∀ c : String, strip_comments c (some "python")
        = ⟨collapseL (dsSub '\'' (dsSub '"' (pyLines c.data)))⟩ := fun c => rfl
    rw [h1, h1]
    exact congrArg String.mk (py_branch_idem code.data)
  · have h1 : ∀ c : String, strip_comments c (some "bash")
        = ⟨collapseL (bashLines c.data)⟩ := fun c => rfl
    rw [h1, h1]
    exact congrArg String.mk (bash_branch_idem code.data)
  · have h1 : ∀ c : String, strip_comments c (some "javascript")
        = ⟨collapseL (blockSub (jsLineSub c.data))⟩ := fun c => rfl
    rw [h1, h1]
    exact congrArg String.mk (js_branch_idem code.data)

theorem strip_comments_idem_witness :
    (("bash" : String) = "python" ∨ ("bash" : String) = "bash"
      ∨ ("bash" : String) = "javascript")
    ∧ strip_comments (strip_comments "a #c\n\n\nb # d\n" (some "bash"))
        (some "bash")
      = strip_comments "a #c\n\n\nb # d\n" (some "bash") :=
  ⟨Or.inr (Or.inl rfl),
    strip_comments_idem "a #c\n\n\nb # d\n" "bash" (Or.inr (Or.inl rfl))⟩

end Pop
